import Mathlib

/-!
Verification of the length-limited prefix-code library
(moffat.c, limitedjpegdeflate.c, limitedbzip2.c, limitedkraft.c,
limitedkraftheap.c) against its natural-language specification.

The C sources are shallowly embedded: arrays become `List ℕ`, machine
integers become `ℕ` with explicit reduction modulo `2^32` (unsigned int),
`2^64` (unsigned long long) or `2^8` (unsigned char) exactly where the C
types force it.  Loops whose termination is not structural are embedded
either by well-founded recursion on the quantity the C loop decreases, or
with an explicit fuel argument when the C loop can in fact fail to
terminate; `none` marks executions on which the C program loops forever
or commits undefined behaviour (out-of-bounds access).  Where C's shift
semantics are undefined (shift count not below the promoted width, or a
signed overflow) the embedding fixes the behaviour of the reference
platform (x86-64 gcc: shift counts reduced modulo the operand width,
two's-complement signed arithmetic), documented at each definition.
-/

/-- 2^32, the modulus of C `unsigned int` arithmetic. -/
def U32 : ℕ := 2 ^ 32

/-- Reduce a natural number modulo 2^32 (C `unsigned int` wrap-around). -/
def u32 (n : ℕ) : ℕ := n % U32

/-- C `unsigned int` subtraction `a - b`: wraps modulo 2^32. -/
def usub32 (a b : ℕ) : ℕ := (a + (U32 - b % U32)) % U32

/-- C `unsigned char` truncation (modulo 2^8). -/
def u8 (n : ℕ) : ℕ := n % 256

/-- C `1ULL << n` on the reference platform: for `n ≤ 63` this is `2^n`;
for larger counts the x86-64 shift instruction reduces the count mod 64. -/
def shl64one (n : ℕ) : ℕ := 2 ^ (n % 64)

/-- The expression `1 << maxLength` from limitedkraft.c line 117 and
limitedkraftheap.c line 235.  The literal `1` has type `int` (32 bits),
so for `maxLength ≥ 31` the C program leaves the standard: the embedding
fixes the reference platform's behaviour (x86-64: count mod 32,
two's-complement wrap, then sign-extending conversion of the `int` result
to `unsigned long long`).  For `maxLength ≤ 30` it equals `2^maxLength`. -/
def oneInt32 (L : ℕ) : ℕ :=
  if L % 32 = 31 then 2 ^ 64 - 2 ^ 31 else 2 ^ (L % 32)

/-- C `x << c` where `x : unsigned int`: value wraps mod 2^32 and the
reference platform reduces the count mod 32. -/
def shl32 (x c : ℕ) : ℕ := (x * 2 ^ (c % 32)) % U32

/-! ## The JPEG Annex K.3 reducer (limitedjpegdeflate.c, limitedJpegInPlace)

The histogram of code lengths `histNumBits[0..63]` is a `List ℕ`; reads
are `List.getD` (index 0 when out of range never occurs on the C array
of 64 entries for the index ranges the loops produce). -/

/-- The search `j = i - 2; while (j > 0 && histNumBits[j] == 0) j--;`
given the start value of `j`.  Returns the final `j` (0 when no nonzero
entry at a positive index was found). -/
def jpegFindJ (bits : List ℕ) : ℕ → ℕ
  | 0 => 0
  | j + 1 => if bits.getD (j + 1) 0 = 0 then jpegFindJ bits j else j + 1

/-- One demotion step of the JPEG loop body (lines 96-105):
`bits[i] -= 2; bits[i-1]++; bits[j+1] += 2; bits[j]--;`
with `unsigned int` wrap-around. -/
def jpegStep (bits : List ℕ) (i j : ℕ) : List ℕ :=
  let b1 := bits.set i (usub32 (bits.getD i 0) 2)
  let b2 := b1.set (i - 1) (u32 (b1.getD (i - 1) 0 + 1))
  let b3 := b2.set (j + 1) (u32 (b2.getD (j + 1) 0 + 2))
  b3.set j (usub32 (b3.getD j 0) 1)

/-- The main JPEG loop `while (i > newMaxLength) { ... }` with fuel.
`none` marks runs on which the C loop does not finish within the given
fuel (the C loop can in fact cycle forever on histograms violating the
function's preconditions). -/
def jpegLoop (newL : ℕ) : ℕ → ℕ → List ℕ → Option (ℕ × List ℕ)
  | 0, _, _ => none
  | fuel + 1, i, bits =>
    if i ≤ newL then some (i, bits)
    else if bits.getD i 0 = 0 then jpegLoop newL fuel (i - 1) bits
    else jpegLoop newL fuel i (jpegStep bits i (jpegFindJ bits (i - 2)))

/-- The final scan `while (i > 0 && histNumBits[i] == 0) i--;` of
limitedJpegInPlace, started at `i`. -/
def jpegScanMax (bits : List ℕ) : ℕ → ℕ
  | 0 => 0
  | i + 1 => if bits.getD (i + 1) 0 = 0 then jpegScanMax bits i else i + 1

/-- Fuel that is provably sufficient for every run of the JPEG loop that
the C program completes when its preconditions hold. -/
def jpegFuel (bits : List ℕ) : ℕ := 64 * 64 * (bits.sum + 2) + 64

/-- limitedJpegInPlace (limitedjpegdeflate.c lines 24-117).  Result is the
returned `unsigned char` paired with the final histogram; `none` only when
the main loop fails to finish (possible only off the preconditions). -/
def limitedJpegInPlace (newL oldL : ℕ) (bits : List ℕ) : Option (ℕ × List ℕ) :=
  if newL ≤ 1 then some (0, bits)
  else if oldL < newL then some (0, bits)
  else if newL = oldL then some (newL, bits)
  else (jpegLoop newL (jpegFuel bits) oldL bits).map fun p => (jpegScanMax p.2 p.1, p.2)

/-! ## The MiniZ reducer (limitedjpegdeflate.c, limitedMinizInPlace) -/

/-- The collapse loop (lines 152-156):
`for (i = newL+1; i <= oldL; i++) { bits[newL] += bits[i]; bits[i] = 0; }`,
embedded with the running index `i` and the remaining iteration count
(`oldL + 1 - i` in the C loop) as arguments. -/
def minizCollapse (newL : ℕ) : ℕ → ℕ → List ℕ → List ℕ
  | _, 0, bits => bits
  | i, n + 1, bits =>
    minizCollapse newL (i + 1) n
      ((bits.set newL (u32 (bits.getD newL 0 + bits.getD i 0))).set i 0)

/-- The Kraft-sum accumulation (lines 160-162):
`for (i = newL; i > 0; i--) total += histNumBits[i] << (newL - i);`.
The shifted value is `unsigned int`, hence `shl32`; the accumulator is
`unsigned long long` and never wraps (at most 63 summands below 2^32). -/
def minizTotal (newL : ℕ) (bits : List ℕ) : ℕ → ℕ
  | 0 => 0
  | i + 1 => shl32 (bits.getD (i + 1) 0) (newL - (i + 1)) + minizTotal newL bits i

/-- The inner search (lines 172-188): scan `i = newL-1 .. 1` for the first
`histNumBits[i] > 0`; `none` when every entry is zero (then the C loop body
falls through having only decremented `bits[newL]`). -/
def minizFindI (bits : List ℕ) : ℕ → Option ℕ
  | 0 => none
  | i + 1 => if 0 < bits.getD (i + 1) 0 then some (i + 1) else minizFindI bits i

/-- The balancing loop (lines 166-192): `while (total > one) { ... total--; }`.
Terminates unconditionally because `total` strictly decreases, so the
recursion is structural in `total`. -/
def minizLoop (newL one : ℕ) : ℕ → List ℕ → List ℕ
  | 0, bits => bits
  | t + 1, bits =>
    if t + 1 ≤ one then bits
    else
      let b1 := bits.set newL (usub32 (bits.getD newL 0) 1)
      let b2 :=
        match minizFindI b1 (newL - 1) with
        | some i => (b1.set i (usub32 (b1.getD i 0) 1)).set (i + 1) (u32 (b1.getD (i + 1) 0 + 2))
        | none => b1
      minizLoop newL one t b2

/-- limitedMinizInPlace (limitedjpegdeflate.c lines 131-195).  Returns the
returned `unsigned char` paired with the final histogram.  Every run of the
C function terminates, so no fuel is needed. -/
def limitedMinizInPlace (newL oldL : ℕ) (bits : List ℕ) : ℕ × List ℕ :=
  if newL ≤ 1 then (0, bits)
  else if oldL < newL then (0, bits)
  else if newL = oldL then (newL, bits)
  else
    let b := minizCollapse newL (newL + 1) (oldL - newL) bits
    (newL, minizLoop newL (shl64one newL) (minizTotal newL b newL) b)

/-! Quick sanity checks of the two reducers on the worked example of
limitedjpegdeflate.h (reduce `{0,1,1,1,1,2}` from 5 to 4 and to 3 bits). -/

example : limitedJpegInPlace 4 5 [0, 1, 1, 1, 1, 2] = some (4, [0, 1, 1, 0, 4, 0]) := by decide

example : limitedJpegInPlace 3 5 [0, 1, 1, 1, 1, 2] = some (3, [0, 0, 2, 4, 0, 0]) := by decide

/-- The scaled Kraft sum `∑_{ℓ ≤ L} bits[ℓ] · 2^(L−ℓ)` of a length
histogram at level `L` (the spec's integer form of the Kraft inequality;
meaningful when every entry above `L` is zero). -/
def kraftS (L : ℕ) (bits : List ℕ) : ℕ :=
  ∑ l ∈ Finset.range (L + 1), bits.getD l 0 * 2 ^ (L - l)

/-- C8 (confirmed).  The two literal scenarios S4 and S5: reducing the
histogram `{0,1,1,1,1,2}` from maximum length 5 to 4 yields `{0,1,1,0,4,0}`
with return value 4, and reducing it to 3 yields `{0,0,2,4,0,0}` with
return value 3. -/
theorem C8_jpeg_literal_scenarios :
    limitedJpegInPlace 4 5 [0, 1, 1, 1, 1, 2] = some (4, [0, 1, 1, 0, 4, 0]) ∧
    limitedJpegInPlace 3 5 [0, 1, 1, 1, 1, 2] = some (3, [0, 0, 2, 4, 0, 0]) := by
  constructor <;> decide

/-- C6 counterexample.  With `newL = oldL = 1` and the histogram `[0, 1]`
(one symbol of length 1: `bits[0] = 0`, Kraft sum `1 ≤ 2^1`, so all the
claim's preconditions hold) both reducers return 0, although the claim
asserts the returned new observed maximum is nonzero — the observed
maximum of the (untouched) histogram is 1.  The C guard
`if (newMaxLength <= 1) return 0;` fires for every `newL ≤ 1`. -/
theorem C6_cex_newL_one_returns_zero :
    limitedJpegInPlace 1 1 [0, 1] = some (0, [0, 1]) ∧
    limitedMinizInPlace 1 1 [0, 1] = (0, [0, 1]) ∧
    [0, 1].getD 0 0 = 0 ∧ kraftS 1 [0, 1] ≤ 2 ^ 1 ∧
    jpegScanMax [0, 1] 1 = 1 ∧ (0 : ℕ) ≠ 1 := by
  refine ⟨by decide, by decide, by decide, by decide, by decide, by decide⟩

/-- C7 counterexample.  The histogram `[0, 1, 0, 0, 8]` (one symbol of
length 1, eight of length 4) satisfies every precondition stated by the
claim for `oldL = 4`, `newL = 3`: `bits[0] = 0`, scaled Kraft sum
`16 ≤ 2^4`, `0 < newL ≤ oldL`.  Yet limitedMinizInPlace ends with
`[0, 0, 0, 8, 0]`: the total symbol count drops from 9 to 8, refuting the
claim's "the total symbol count is unchanged".  (When the balancing loop
finds no shorter code to extend it still decrements `bits[newL]`,
discarding a symbol; this happens whenever `2^newL` is smaller than the
number of symbols.)  Moreover limitedJpegInPlace on the exact-Kraft
histogram `[0, 0, 2, 4]` (lengths 2,2,3,3,3,3) reduced from 3 to 2 bits
finds no code two bits shorter, decrements `bits[0]` into a huge wrapped
value, and ends with `[2^32-1, 1, 6, 0]`, whose Kraft sum at scale 2
exceeds `2^2` even ignoring the corrupted entry 0 — refuting the claim's
"the Kraft sum at newL satisfies ... <= 2^newL" for the JPEG reducer. -/
theorem C7_cex_miniz_count_not_preserved :
    (limitedMinizInPlace 3 4 [0, 1, 0, 0, 8] = (3, [0, 0, 0, 8, 0]) ∧
     [0, 1, 0, 0, 8].getD 0 0 = 0 ∧ kraftS 4 [0, 1, 0, 0, 8] ≤ 2 ^ 4 ∧
     List.sum [0, 1, 0, 0, 8] = 9 ∧ List.sum [0, 0, 0, 8, 0] = 8 ∧
     (9 : ℕ) ≠ 8) ∧
    (limitedJpegInPlace 2 3 [0, 0, 2, 4] = some (2, [4294967295, 1, 6, 0]) ∧
     kraftS 3 [0, 0, 2, 4] = 2 ^ 3 ∧
     2 ^ 2 < kraftS 2 [4294967295, 1, 6, 0] ∧
     2 ^ 2 < 1 * 2 ^ (2 - 1) + 6 * 2 ^ (2 - 2)) := by
  refine ⟨⟨by decide, by decide, by decide, by decide, by decide, by decide⟩,
    by decide, by decide, by decide⟩

/-! ## Moffat's in-place algorithm (moffat.c, moffatSortedInPlace)

The array `A` of `unsigned int` is a `List ℕ` whose entries stay below
2^32 (sums are reduced mod 2^32 like the C additions).  The loop
counters `leaf`, `root`, `next` are `unsigned int`; `depth` is an
`unsigned char` and therefore wraps modulo 256 (this wrap is real C
behaviour and is observable for 257 or more codes). -/

/-- One child selection of the combine phase (lines 38-48 and 51-61):
either consume the smallest unmerged internal node (when
`leaf >= numCodes || (root < next && A[root] < A[leaf])`) — recording the
parent index `next` in the consumed slot — or consume the next leaf.
Returns the consumed weight and the updated cursors and array. -/
def moffatChild (numCodes next leaf root : ℕ) (arr : List ℕ) : ℕ × ℕ × ℕ × List ℕ :=
  if numCodes ≤ leaf ∨ (root < next ∧ arr.getD root 0 < arr.getD leaf 0) then
    (arr.getD root 0, leaf, root + 1, arr.set root next)
  else
    (arr.getD leaf 0, leaf + 1, root, arr)

/-- One iteration of the combine loop (lines 35-62): select two children,
store the first weight in `A[next]`, then add the second to it. -/
def moffatCombineStep (numCodes next leaf root : ℕ) (arr : List ℕ) : ℕ × ℕ × List ℕ :=
  let c1 := moffatChild numCodes next leaf root arr
  let arr1 := c1.2.2.2.set next c1.1
  let c2 := moffatChild numCodes next c1.2.1 c1.2.2.1 arr1
  (c2.2.1, c2.2.2.1, c2.2.2.2.set next (u32 (c2.2.2.2.getD next 0 + c2.1)))

/-- The combine phase (`for (next = 0; next < numCodes - 1; next++)`),
with the remaining iteration count as the structural argument. -/
def moffatCombine (numCodes : ℕ) : ℕ → ℕ → ℕ → ℕ → List ℕ → List ℕ
  | _, _, _, 0, arr => arr
  | next, leaf, root, n + 1, arr =>
    let s := moffatCombineStep numCodes next leaf root arr
    moffatCombine numCodes (next + 1) s.1 s.2.1 n s.2.2

/-- Phase 2 (lines 65-68): `for (j = numCodes-3; j >= 0; j--)
A[j] = A[A[j]] + 1;`.  The argument is `j + 1` (so `0` stops the loop). -/
def moffatPhase2 (arr : List ℕ) : ℕ → List ℕ
  | 0 => arr
  | j + 1 => moffatPhase2 (arr.set j (u32 (arr.getD (arr.getD j 0) 0 + 1))) j

/-- Phase-3 inner loop 1 (lines 79-83):
`while (root2 >= 0 && A[root2] == depth) { used++; root2--; }`.
The `int` variable `root2` is represented by `root2 + 1 : ℕ` (so value `0`
encodes `root2 = -1`).  Returns the new encoded `root2` and `used`. -/
def moffatConsume (arr : List ℕ) (depth : ℕ) : ℕ → ℕ → ℕ × ℕ
  | 0, used => (0, used)
  | r + 1, used =>
    if arr.getD r 0 = depth then moffatConsume arr depth r (used + 1) else (r + 1, used)

/-- Phase-3 inner loop 2 (lines 84-89):
`while (avail > used) { A[next] = depth; next--; avail--; }`, with the
write count `avail - used` as the structural argument.  `next` is an
`unsigned int` and wraps at zero. -/
def moffatFill (depth : ℕ) : ℕ → ℕ → List ℕ → ℕ × List ℕ
  | 0, next, arr => (next, arr)
  | c + 1, next, arr => moffatFill depth c (usub32 next 1) (arr.set next depth)

/-- Phase-3 outer loop (lines 77-94) with fuel.  Every C run terminates
within `numCodes + 2` rounds (each round either empties `avail` or moves
`root2` down), so the fuel-0 branch is unreachable for the fuel
`moffatSortedInPlace` supplies.  `depth` is the `unsigned char` counter
and is reduced mod 256 at each increment. -/
def moffatSpread : ℕ → ℕ → ℕ → ℕ → ℕ → ℕ → List ℕ → List ℕ
  | 0, _, _, _, _, _, arr => arr
  | fuel + 1, avail, used, depth, root2pos, next, arr =>
    if avail = 0 then arr
    else
      let c := moffatConsume arr depth root2pos used
      let f := moffatFill depth (avail - c.2) next arr
      moffatSpread fuel (2 * c.2) 0 (u8 (depth + 1)) c.1 f.1 f.2

/-- moffatSortedInPlace (moffat.c lines 17-98).  Returns the returned
`unsigned char` (the value `A[0]` truncated mod 256) together with the
final array. -/
def moffatSortedInPlace (numCodes : ℕ) (arr : List ℕ) : ℕ × List ℕ :=
  if numCodes = 0 then (0, arr)
  else if numCodes = 1 then (1, arr.set 0 1)
  else
    let a1 := moffatCombine numCodes 0 0 0 (numCodes - 1) arr
    let a2 := moffatPhase2 (a1.set (numCodes - 2) 0) (numCodes - 2)
    let a3 := moffatSpread (numCodes + 2) 1 0 0 (numCodes - 1) (numCodes - 1) a2
    (u8 (a3.getD 0 0), a3)

/-- Reading the written position of `List.set`. -/
theorem getD_set_self {l : List ℕ} {i a : ℕ} (h : i < l.length) :
    (l.set i a).getD i 0 = a := by
  simp [List.getD, List.getElem?_set_self, h]

/-- Reading an untouched position of `List.set`. -/
theorem getD_set_ne {l : List ℕ} {i j a : ℕ} (h : i ≠ j) :
    (l.set i a).getD j 0 = l.getD j 0 := by
  simp [List.getD, List.getElem?_set_ne h]

/-- Reading past the end of a list. -/
theorem getD_oob {l : List ℕ} {i : ℕ} (h : l.length ≤ i) : l.getD i 0 = 0 := by
  simp [List.getD, List.getElem?_eq_none, h]

/-- The invariant of the combine phase, at the start of the iteration for
index `next`.  Positions below `root` hold parent indices (each strictly
above its own index and below `next`, non-decreasing, and strictly
increasing two apart); the cursor algebra `leaf + root = 2·next` records
that every iteration consumes exactly two children. -/
structure MoffatP1 (M next leaf root : ℕ) (arr : List ℕ) : Prop where
  hlen : arr.length = M
  hleaf : leaf ≤ M
  hroot : root ≤ next
  hrootM : root ≤ M - 2
  hsum : leaf + root = 2 * next
  hpar : ∀ k, k < root → k < arr.getD k 0 ∧ arr.getD k 0 < next
  hmono : ∀ k k', k ≤ k' → k' < root → arr.getD k 0 ≤ arr.getD k' 0
  hsep : ∀ k, k + 2 < root → arr.getD k 0 < arr.getD (k + 2) 0

/-- What one child selection does to the invariant state.  `e` is 0 before
the first child of an iteration and 1 before the second; `b = 1 - e`
controls the hypothesis `hbelow`: before the first child every parent slot
holds a value strictly below `next`, before the second child every slot
except possibly the topmost does (the topmost may hold exactly `next`,
written by the first child). -/
theorem moffatChild_spec {M next leaf root e b : ℕ} {arr : List ℕ}
    (hlen : arr.length = M) (hleaf : leaf ≤ M)
    (hsum : leaf + root = 2 * next + e) (he : e ≤ 1) (hb : b = 1 - e)
    (hnext : next < M - 1) (hroot : root ≤ next)
    (hpar : ∀ k, k < root → k < arr.getD k 0 ∧ arr.getD k 0 ≤ next)
    (hbelow : ∀ k, k + 1 < root + b → arr.getD k 0 < next)
    (hmono : ∀ k k', k ≤ k' → k' < root → arr.getD k 0 ≤ arr.getD k' 0)
    (hsep : ∀ k, k + 2 < root → arr.getD k 0 < arr.getD (k + 2) 0) :
    (moffatChild M next leaf root arr).2.2.2.length = M ∧
    (moffatChild M next leaf root arr).2.1 ≤ M ∧
    (moffatChild M next leaf root arr).2.2.1 ≤ next ∧
    (moffatChild M next leaf root arr).2.2.1 ≤ root + 1 ∧
    (moffatChild M next leaf root arr).2.1 + (moffatChild M next leaf root arr).2.2.1
      = 2 * next + e + 1 ∧
    (∀ k, k < (moffatChild M next leaf root arr).2.2.1 →
      k < (moffatChild M next leaf root arr).2.2.2.getD k 0 ∧
      (moffatChild M next leaf root arr).2.2.2.getD k 0 ≤ next) ∧
    (b = 1 → ∀ k, k + 1 < (moffatChild M next leaf root arr).2.2.1 →
      (moffatChild M next leaf root arr).2.2.2.getD k 0 < next) ∧
    (∀ k k', k ≤ k' → k' < (moffatChild M next leaf root arr).2.2.1 →
      (moffatChild M next leaf root arr).2.2.2.getD k 0 ≤
        (moffatChild M next leaf root arr).2.2.2.getD k' 0) ∧
    (∀ k, k + 2 < (moffatChild M next leaf root arr).2.2.1 →
      (moffatChild M next leaf root arr).2.2.2.getD k 0 <
        (moffatChild M next leaf root arr).2.2.2.getD (k + 2) 0) ∧
    (∀ p, p ≠ root → (moffatChild M next leaf root arr).2.2.2.getD p 0 = arr.getD p 0) := by
  unfold moffatChild
  by_cases hg : M ≤ leaf ∨ (root < next ∧ arr.getD root 0 < arr.getD leaf 0)
  · -- the internal node at `root` is consumed and its slot records parent `next`
    have hrn : root < next := by
      rcases hg with hML | hg2
      · omega
      · exact hg2.1
    have hrlen : root < arr.length := by omega
    simp only [hg, if_pos]
    refine ⟨by simp [hlen], hleaf, by omega, by omega, by omega, ?_, ?_, ?_, ?_, ?_⟩
    · intro k hk
      rcases Nat.lt_or_ge k root with hkr | hkr
      · have := hpar k hkr
        rw [getD_set_ne (by omega)]
        omega
      · have hkeq : k = root := by omega
        subst hkeq
        rw [getD_set_self hrlen]
        omega
    · intro hb1 k hk
      rw [getD_set_ne (by omega)]
      exact hbelow k (by omega)
    · intro k k' hkk hk'
      rcases Nat.lt_or_ge k' root with hk'r | hk'r
      · rw [getD_set_ne (by omega), getD_set_ne (by omega)]
        exact hmono k k' hkk hk'r
      · have hk'eq : k' = root := by omega
        rw [hk'eq, getD_set_self hrlen]
        rcases Nat.lt_or_ge k root with hkr | hkr
        · rw [getD_set_ne (by omega)]
          have := hpar k hkr
          omega
        · have hkeq : k = root := by omega
          rw [hkeq, getD_set_self hrlen]
    · intro k hk2
      rcases Nat.lt_or_ge (k + 2) root with hkr | hkr
      · rw [getD_set_ne (by omega), getD_set_ne (by omega)]
        exact hsep k hkr
      · have hkeq : k + 2 = root := by omega
        rw [getD_set_ne (by omega), hkeq, getD_set_self hrlen]
        exact hbelow k (by omega)
    · intro p hp
      rw [getD_set_ne (Ne.symm hp)]
  · -- a leaf is consumed; the array is unchanged
    have hlM : leaf < M := by
      rcases Nat.lt_or_ge leaf M with h | h
      · exact h
      · exact absurd (Or.inl h) hg
    simp only [hg, if_neg, not_false_iff]
    refine ⟨hlen, by omega, ?_, by omega, by omega, hpar, ?_, hmono, hsep, by simp⟩
    · omega
    · intro hb1 k hk
      exact hbelow k (by omega)

/-- What one full combine iteration does to the invariant. -/
theorem moffatCombineStep_inv {M next leaf root : ℕ} {arr : List ℕ}
    (inv : MoffatP1 M next leaf root arr) (hnext : next < M - 1) :
    MoffatP1 M (next + 1) (moffatCombineStep M next leaf root arr).1
      (moffatCombineStep M next leaf root arr).2.1
      (moffatCombineStep M next leaf root arr).2.2 := by
  obtain ⟨hlen, hleaf, hroot, hrootM, hsum, hpar, hmono, hsep⟩ := inv
  set c1 := moffatChild M next leaf root arr with hc1
  obtain ⟨c1len, c1leaf, c1root, c1rootB, c1sum, c1par, c1below, c1mono, c1sep, c1frame⟩ :=
    moffatChild_spec (e := 0) (b := 1) hlen hleaf (by omega) (by omega) rfl hnext hroot
      (fun k hk => ⟨(hpar k hk).1, le_of_lt (hpar k hk).2⟩)
      (fun k hk => (hpar k (by omega)).2)
      hmono hsep
  rw [← hc1] at c1len c1leaf c1root c1rootB c1sum c1par c1below c1mono c1sep c1frame
  set arr1 := c1.2.2.2.set next c1.1 with harr1
  have harr1len : arr1.length = M := by
    rw [harr1]
    simp [c1len]
  have harr1low : ∀ p, p < next → arr1.getD p 0 = c1.2.2.2.getD p 0 := by
    intro p hp
    rw [harr1]
    exact getD_set_ne (by omega)
  set c2 := moffatChild M next c1.2.1 c1.2.2.1 arr1 with hc2
  obtain ⟨c2len, c2leaf, c2root, c2rootB, c2sum, c2par, c2below, c2mono, c2sep, c2frame⟩ :=
    moffatChild_spec (e := 1) (b := 0) harr1len c1leaf (by omega) (by omega) rfl hnext c1root
      (fun k hk => by
        rw [harr1low k (by omega)]
        exact c1par k hk)
      (fun k hk => by
        rw [harr1low k (by omega)]
        exact c1below rfl k (by omega))
      (fun k k' hkk hk' => by
        rw [harr1low k (by omega), harr1low k' (by omega)]
        exact c1mono k k' hkk hk')
      (fun k hk => by
        rw [harr1low k (by omega), harr1low (k + 2) (by omega)]
        exact c1sep k hk)
  rw [← hc2] at c2len c2leaf c2root c2rootB c2sum c2par c2below c2mono c2sep c2frame
  have hstep : moffatCombineStep M next leaf root arr
      = (c2.2.1, c2.2.2.1, c2.2.2.2.set next (u32 (c2.2.2.2.getD next 0 + c2.1))) := rfl
  rw [hstep]
  show MoffatP1 M (next + 1) c2.2.1 c2.2.2.1
    (c2.2.2.2.set next (u32 (c2.2.2.2.getD next 0 + c2.1)))
  have hfin : ∀ p, p < next →
      (c2.2.2.2.set next (u32 (c2.2.2.2.getD next 0 + c2.1))).getD p 0
        = c2.2.2.2.getD p 0 := by
    intro p hp
    exact getD_set_ne (by omega)
  refine ⟨by simp [c2len], c2leaf, by omega, by omega, by omega, ?_, ?_, ?_⟩
  · intro k hk
    rw [hfin k (by omega)]
    have := c2par k hk
    omega
  · intro k k' hkk hk'
    rw [hfin k (by omega), hfin k' (by omega)]
    exact c2mono k k' hkk hk'
  · intro k hk
    rw [hfin k (by omega), hfin (k + 2) (by omega)]
    exact c2sep k hk

/-- The full combine phase preserves the invariant; at exit the cursors are
forced to `leaf = M`, `root = M - 2`, so positions `0 .. M-3` all hold
parent indices. -/
theorem moffatCombine_inv {M : ℕ} (h2 : 2 ≤ M) :
    ∀ n next leaf root arr, MoffatP1 M next leaf root arr → next + n = M - 1 →
    ∃ lf rt, MoffatP1 M (M - 1) lf rt (moffatCombine M next leaf root n arr) ∧
      lf = M ∧ rt = M - 2 := by
  intro n
  induction n with
  | zero =>
    intro next leaf root arr inv hn
    have hnn : next = M - 1 := by omega
    subst hnn
    refine ⟨leaf, root, inv, ?_, ?_⟩
    · have h1 := inv.hsum
      have h2 := inv.hleaf
      have h3 := inv.hrootM
      omega
    · have h1 := inv.hsum
      have h2 := inv.hleaf
      have h3 := inv.hrootM
      omega
  | succ n ih =>
    intro next leaf root arr inv hn
    have hnext : next < M - 1 := by omega
    have step := moffatCombineStep_inv inv hnext
    have hunf : moffatCombine M next leaf root (n + 1) arr
        = moffatCombine M (next + 1) (moffatCombineStep M next leaf root arr).1
            (moffatCombineStep M next leaf root arr).2.1 n
            (moffatCombineStep M next leaf root arr).2.2 := rfl
    rw [hunf]
    exact ih (next + 1) _ _ _ step (by omega)

/-- The abstract parent structure that phase 1 leaves in `A[0 .. M-3]`:
each slot points strictly upward, at most to the root `M - 2`, parents are
non-decreasing and strictly increase two slots apart (so every node has at
most two children). -/
structure ParentStruct (M : ℕ) (par : ℕ → ℕ) : Prop where
  hgt : ∀ k, k < M - 2 → k < par k
  hle : ∀ k, k < M - 2 → par k ≤ M - 2
  hmono : ∀ k k', k ≤ k' → k' < M - 2 → par k ≤ par k'
  hsep : ∀ k, k + 2 < M - 2 → par k < par (k + 2)

/-- The depth of internal node `j` determined by the parent chain
(`0` at the root `M - 2`), computed with fuel so that it is total for an
arbitrary parent map. -/
def depthOfAux (par : ℕ → ℕ) (stop : ℕ) : ℕ → ℕ → ℕ
  | 0, _ => 0
  | fuel + 1, j => if stop ≤ j then 0 else depthOfAux par stop fuel (par j) + 1

/-- Depth of internal node `j` in the tree encoded by the parent map. -/
def depthOf (M : ℕ) (par : ℕ → ℕ) (j : ℕ) : ℕ := depthOfAux par (M - 2) M j

theorem depthOfAux_congr {M : ℕ} {par : ℕ → ℕ} (ps : ParentStruct M par) :
    ∀ m j, M - 2 - j = m → ∀ fuel fuel', M - 2 - j < fuel → M - 2 - j < fuel' →
    depthOfAux par (M - 2) fuel j = depthOfAux par (M - 2) fuel' j := by
  intro m
  induction m using Nat.strong_induction_on with
  | _ m ih =>
  intro j hm fuel fuel' hf hf'
  match fuel, fuel' with
  | f + 1, f' + 1 =>
    simp only [depthOfAux]
    by_cases hstop : M - 2 ≤ j
    · simp [hstop]
    · simp only [hstop, if_neg, not_false_iff]
      have hj2 : j < M - 2 := by omega
      have h1 := ps.hgt j hj2
      have h2 := ps.hle j hj2
      have := ih (M - 2 - par j) (by omega) (par j) rfl f f' (by omega) (by omega)
      omega

theorem depthOf_stop {M : ℕ} {par : ℕ → ℕ} (j : ℕ) (h : M - 2 ≤ j) :
    depthOf M par j = 0 := by
  unfold depthOf
  rcases Nat.eq_zero_or_pos M with hM | hM
  · rw [hM]
    rfl
  · obtain ⟨Mm, rfl⟩ : ∃ Mm, M = Mm + 1 := ⟨M - 1, by omega⟩
    show (if Mm + 1 - 2 ≤ j then 0
      else depthOfAux par (Mm + 1 - 2) Mm (par j) + 1) = 0
    rw [if_pos h]

theorem depthOf_succ {M : ℕ} {par : ℕ → ℕ} (ps : ParentStruct M par)
    (j : ℕ) (h : j < M - 2) :
    depthOf M par j = depthOf M par (par j) + 1 := by
  obtain ⟨Mm, rfl⟩ : ∃ Mm, M = Mm + 1 := ⟨M - 1, by omega⟩
  unfold depthOf
  have h1 := ps.hgt j h
  have h2 := ps.hle j h
  have hns : ¬ (Mm + 1 - 2 ≤ j) := by omega
  show (if Mm + 1 - 2 ≤ j then 0
    else depthOfAux par (Mm + 1 - 2) Mm (par j) + 1)
    = depthOfAux par (Mm + 1 - 2) (Mm + 1) (par j) + 1
  rw [if_neg hns,
    depthOfAux_congr ps (Mm + 1 - 2 - par j) (par j) rfl Mm (Mm + 1)
      (by omega) (by omega)]

theorem depthOf_le {M : ℕ} {par : ℕ → ℕ} (ps : ParentStruct M par) :
    ∀ m j, M - 2 - j = m → depthOf M par j ≤ M - 2 - j := by
  intro m
  induction m using Nat.strong_induction_on with
  | _ m ih =>
  intro j hm
  by_cases h : M - 2 ≤ j
  · rw [depthOf_stop j h]
    omega
  · have hj2 : j < M - 2 := by omega
    rw [depthOf_succ ps j hj2]
    have h1 := ps.hgt j hj2
    have h2 := ps.hle j hj2
    have := ih (M - 2 - par j) (by omega) (par j) rfl
    omega

/-- Depths are antitone in the node index: internal nodes created later
(higher index) are closer to the root. -/
theorem depthOf_antitone {M : ℕ} {par : ℕ → ℕ} (ps : ParentStruct M par) :
    ∀ m j, M - 2 - j = m → ∀ k, j ≤ k → k ≤ M - 2 →
    depthOf M par k ≤ depthOf M par j := by
  intro m
  induction m using Nat.strong_induction_on with
  | _ m ih =>
  intro j hm k hjk hk
  rcases Nat.eq_or_lt_of_le hjk with heq | hlt
  · rw [heq]
  · by_cases hje : M - 2 ≤ j
    · have hkj : k = j := by omega
      rw [hkj]
    · have hj2 : j < M - 2 := by omega
      rw [depthOf_succ ps j hj2]
      rcases Nat.eq_or_lt_of_le hk with hke | hk2
      · rw [hke, depthOf_stop _ (le_refl _)]
        omega
      · rw [depthOf_succ ps k (by omega)]
        have h1 := ps.hgt j hj2
        have h2 := ps.hle j hj2
        have h3 := ps.hgt k (by omega)
        have h4 := ps.hle k (by omega)
        have h5 := ps.hmono j k hjk (by omega)
        have := ih (M - 2 - par j) (by omega) (par j) rfl (par k) h5 h4
        omega

/-- Correctness of the phase-2 loop: at argument `t`, positions `≥ t`
hold depths, positions `< t` still hold parent indices; afterwards every
internal slot `0 .. M-2` holds its depth and slot `M-1` is untouched. -/
theorem moffatPhase2_spec {M : ℕ} {par : ℕ → ℕ} (ps : ParentStruct M par)
    (hM : M < 2 ^ 32) :
    ∀ t arr, t ≤ M - 2 → arr.length = M →
    (∀ k, k < t → arr.getD k 0 = par k) →
    (∀ k, t ≤ k → k ≤ M - 2 → arr.getD k 0 = depthOf M par k) →
    (moffatPhase2 arr t).length = M ∧
    (∀ k, k ≤ M - 2 → (moffatPhase2 arr t).getD k 0 = depthOf M par k) ∧
    (moffatPhase2 arr t).getD (M - 1) 0 = arr.getD (M - 1) 0 := by
  intro t
  induction t with
  | zero =>
    intro arr _ hlen hlow hhigh
    exact ⟨hlen, fun k hk => hhigh k (Nat.zero_le k) hk, rfl⟩
  | succ j ih =>
    intro arr ht hlen hlow hhigh
    have hj : j < M - 2 := by omega
    have hjlen : j < arr.length := by omega
    have harrj : arr.getD j 0 = par j := hlow j (by omega)
    have hgt := ps.hgt j hj
    have hle := ps.hle j hj
    have hparj : arr.getD (arr.getD j 0) 0 = depthOf M par (par j) := by
      rw [harrj]
      exact hhigh (par j) (by omega) hle
    have hdle := depthOf_le ps (M - 2 - par j) (par j) rfl
    have hval : u32 (arr.getD (arr.getD j 0) 0 + 1) = depthOf M par j := by
      rw [hparj, depthOf_succ ps j hj]
      unfold u32 U32
      exact Nat.mod_eq_of_lt (by omega)
    have hunf : moffatPhase2 arr (j + 1)
        = moffatPhase2 (arr.set j (u32 (arr.getD (arr.getD j 0) 0 + 1))) j := rfl
    rw [hunf]
    obtain ⟨l1, l2, l3⟩ := ih (arr.set j (u32 (arr.getD (arr.getD j 0) 0 + 1)))
      (by omega) (by simp [hlen])
      (fun k hk => by
        rw [getD_set_ne (by omega)]
        exact hlow k (by omega))
      (fun k hk1 hk2 => by
        rcases Nat.eq_or_lt_of_le hk1 with heq | hlt
        · rw [← heq, getD_set_self hjlen]
          exact hval
        · rw [getD_set_ne (by omega)]
          exact hhigh k (by omega) hk2)
    refine ⟨l1, l2, ?_⟩
    rw [l3, getD_set_ne (by omega)]

/-- The number of internal nodes at depth `d` (indices `0 .. M-2`). -/
def cntD (M : ℕ) (par : ℕ → ℕ) (d : ℕ) : ℕ :=
  ((Finset.range (M - 1)).filter fun k => depthOf M par k = d).card

/-- The number of internal nodes at depth strictly below `d`. -/
def belowD (M : ℕ) (par : ℕ → ℕ) (d : ℕ) : ℕ :=
  ((Finset.range (M - 1)).filter fun k => depthOf M par k < d).card

theorem cntD_zero {M : ℕ} {par : ℕ → ℕ} (ps : ParentStruct M par) (h2 : 2 ≤ M) :
    cntD M par 0 = 1 := by
  unfold cntD
  have : (Finset.range (M - 1)).filter (fun k => depthOf M par k = 0) = {M - 2} := by
    ext k
    simp only [Finset.mem_filter, Finset.mem_range, Finset.mem_singleton]
    constructor
    · rintro ⟨hk, hd⟩
      by_contra hne
      have hklt : k < M - 2 := by omega
      rw [depthOf_succ ps k hklt] at hd
      omega
    · rintro rfl
      exact ⟨by omega, depthOf_stop _ (le_refl _)⟩
  rw [this, Finset.card_singleton]

theorem depthOf_le_max {M : ℕ} {par : ℕ → ℕ} (ps : ParentStruct M par) :
    ∀ k, k ≤ M - 2 → depthOf M par k ≤ depthOf M par 0 :=
  fun k hk => depthOf_antitone ps (M - 2) 0 (by omega) k (Nat.zero_le k) hk

theorem cntD_gone {M : ℕ} {par : ℕ → ℕ} (ps : ParentStruct M par) {d : ℕ}
    (hd : depthOf M par 0 < d) : cntD M par d = 0 := by
  unfold cntD
  rw [Finset.card_eq_zero]
  ext k
  simp only [Finset.mem_filter, Finset.mem_range, Finset.not_mem_empty, iff_false,
    not_and]
  intro hk hdk
  have := depthOf_le_max ps k (by omega)
  omega

theorem belowD_succ {M : ℕ} {par : ℕ → ℕ} (d : ℕ) :
    belowD M par (d + 1) = belowD M par d + cntD M par d := by
  unfold belowD cntD
  rw [← Finset.card_union_of_disjoint]
  · congr 1
    ext k
    simp only [Finset.mem_filter, Finset.mem_range, Finset.mem_union]
    constructor
    · rintro ⟨hk, hd⟩
      rcases Nat.lt_or_ge (depthOf M par k) d with h | h
      · exact Or.inl ⟨hk, h⟩
      · exact Or.inr ⟨hk, by omega⟩
    · rintro (⟨hk, h⟩ | ⟨hk, h⟩)
      · exact ⟨hk, by omega⟩
      · exact ⟨hk, by omega⟩
  · rw [Finset.disjoint_filter]
    intro k _ h1 h2
    omega

theorem belowD_zero {M : ℕ} {par : ℕ → ℕ} : belowD M par 0 = 0 := by
  unfold belowD
  simp

theorem belowD_all {M : ℕ} {par : ℕ → ℕ} (ps : ParentStruct M par) {d : ℕ}
    (hd : depthOf M par 0 < d) : belowD M par d = M - 1 := by
  unfold belowD
  have : (Finset.range (M - 1)).filter (fun k => depthOf M par k < d)
      = Finset.range (M - 1) := by
    apply Finset.filter_true_of_mem
    intro k hk
    rw [Finset.mem_range] at hk
    have := depthOf_le_max ps k (by omega)
    omega
  rw [this, Finset.card_range]

/-- Every internal node has at most two children, so the population of a
depth level at most doubles from one level to the next. -/
theorem cntD_succ_le {M : ℕ} {par : ℕ → ℕ} (ps : ParentStruct M par) (d : ℕ) :
    cntD M par (d + 1) ≤ 2 * cntD M par d := by
  classical
  unfold cntD
  set s := (Finset.range (M - 1)).filter fun k => depthOf M par k = d + 1 with hs
  set t := (Finset.range (M - 1)).filter fun k => depthOf M par k = d with hts
  have hmem : ∀ k ∈ s, k < M - 2 := by
    intro k hk
    rw [hs, Finset.mem_filter, Finset.mem_range] at hk
    by_contra hge
    have : M - 2 ≤ k := by omega
    rw [depthOf_stop k this] at hk
    omega
  have hmaps : ∀ k ∈ s, par k ∈ t := by
    intro k hk
    have hklt := hmem k hk
    rw [hs, Finset.mem_filter] at hk
    rw [hts, Finset.mem_filter, Finset.mem_range]
    have hsucc := depthOf_succ ps k hklt
    have hle := ps.hle k hklt
    have hgt := ps.hgt k hklt
    exact ⟨by omega, by omega⟩
  rw [Finset.card_eq_sum_card_fiberwise hmaps]
  have hfiber : ∀ b ∈ t, (s.filter fun k => par k = b).card ≤ 2 := by
    intro b _
    by_contra hgt2
    have h3 : 2 < (s.filter fun k => par k = b).card := by omega
    obtain ⟨x, hx, y, hy, z, hz, hxy, hxz, hyz⟩ := Finset.two_lt_card.mp h3
    rw [Finset.mem_filter] at hx hy hz
    have hxs := hmem x hx.1
    have hys := hmem y hy.1
    have hzs := hmem z hz.1
    -- two of the three children are at least two indices apart
    have key : ∀ u v, u ∈ s.filter (fun k => par k = b) →
        v ∈ s.filter (fun k => par k = b) → u + 2 ≤ v → False := by
      intro u v hu hv huv
      rw [Finset.mem_filter] at hu hv
      have hus := hmem u hu.1
      have hvs := hmem v hv.1
      have h1 := ps.hsep u (by omega)
      have h2 := ps.hmono (u + 2) v (by omega) hvs
      omega
    have hx' : x ∈ s.filter (fun k => par k = b) := by
      rw [Finset.mem_filter]
      exact hx
    have hy' : y ∈ s.filter (fun k => par k = b) := by
      rw [Finset.mem_filter]
      exact hy
    have hz' : z ∈ s.filter (fun k => par k = b) := by
      rw [Finset.mem_filter]
      exact hz
    rcases Nat.lt_or_ge x y with h1 | h1 <;> rcases Nat.lt_or_ge y z with h2 | h2 <;>
      rcases Nat.lt_or_ge x z with h3 | h3
    · exact key x z hx' hz' (by omega)
    · exact key z y hz' hy' (by omega)
    · exact key x y hx' hy' (by omega)
    · exact key z y hz' hy' (by omega)
    · exact key y z hy' hz' (by omega)
    · exact key y x hy' hx' (by omega)
    · exact key x z hx' hz' (by omega)
    · exact key z x hz' hx' (by omega)
  calc ∑ b ∈ t, (s.filter fun k => par k = b).card
      ≤ ∑ _b ∈ t, 2 := Finset.sum_le_sum hfiber
    _ = 2 * t.card := by
        rw [Finset.sum_const, smul_eq_mul, Nat.mul_comm]

theorem usub32_small {a b : ℕ} (hb : b ≤ a) (ha : a < U32) : usub32 a b = a - b := by
  unfold usub32 U32
  unfold U32 at ha
  omega

/-- Every depth between 0 and the maximum is realized (walk the parent
chain from node 0), so no level of the spread loop is empty. -/
theorem depthOf_surj {M : ℕ} {par : ℕ → ℕ} (ps : ParentStruct M par) :
    ∀ m j, M - 2 - j = m → j ≤ M - 2 → ∀ d, d ≤ depthOf M par j →
    ∃ k, k ≤ M - 2 ∧ j ≤ k ∧ depthOf M par k = d := by
  intro m
  induction m using Nat.strong_induction_on with
  | _ m ih =>
  intro j hm hj d hd
  rcases Nat.eq_or_lt_of_le hd with heq | hlt
  · exact ⟨j, hj, le_refl j, heq.symm⟩
  · have hj2 : j < M - 2 := by
      by_contra hge
      have : M - 2 ≤ j := by omega
      rw [depthOf_stop j this] at hlt
      omega
    rw [depthOf_succ ps j hj2] at hlt
    have h1 := ps.hgt j hj2
    have h2 := ps.hle j hj2
    obtain ⟨k, hk1, hk2, hk3⟩ := ih (M - 2 - par j) (by omega) (par j) rfl h2 d (by omega)
    exact ⟨k, hk1, by omega, hk3⟩

theorem cntD_pos {M : ℕ} {par : ℕ → ℕ} (ps : ParentStruct M par) (h2 : 2 ≤ M)
    {d : ℕ} (hd : d ≤ depthOf M par 0) : 0 < cntD M par d := by
  obtain ⟨k, hk1, _, hk3⟩ := depthOf_surj ps (M - 2) 0 rfl (by omega) d hd
  unfold cntD
  rw [Finset.card_pos]
  exact ⟨k, by
    rw [Finset.mem_filter, Finset.mem_range]
    exact ⟨by omega, hk3⟩⟩

/-- The phase-3 consume loop takes exactly the nodes of the current depth:
given that the unconsumed prefix holds depths that are antitone and at
least `r`, it removes the trailing block equal to `r`. -/
theorem moffatConsume_spec {M : ℕ} {par : ℕ → ℕ} (ps : ParentStruct M par) (r : ℕ) :
    ∀ root2pos used arr,
    (∀ k, k < root2pos → arr.getD k 0 = depthOf M par k ∧ r ≤ depthOf M par k) →
    root2pos ≤ M - 1 →
    moffatConsume arr r root2pos used
      = (root2pos - ((Finset.range root2pos).filter
            fun k => depthOf M par k = r).card,
         used + ((Finset.range root2pos).filter
            fun k => depthOf M par k = r).card) := by
  intro root2pos
  induction root2pos with
  | zero =>
    intro used arr _ _
    simp [moffatConsume]
  | succ rp ih =>
    intro used arr hlow hle
    have hrp := hlow rp (by omega)
    show (if arr.getD rp 0 = r then moffatConsume arr r rp (used + 1)
      else (rp + 1, used)) = _
    by_cases hr : arr.getD rp 0 = r
    · rw [if_pos hr]
      have hdrp : depthOf M par rp = r := by omega
      have hset : (Finset.range (rp + 1)).filter (fun k => depthOf M par k = r)
          = insert rp ((Finset.range rp).filter fun k => depthOf M par k = r) := by
        ext k
        simp only [Finset.mem_filter, Finset.mem_range, Finset.mem_insert]
        constructor
        · rintro ⟨hk, hdk⟩
          rcases Nat.lt_or_ge k rp with h | h
          · exact Or.inr ⟨h, hdk⟩
          · exact Or.inl (by omega)
        · rintro (rfl | ⟨hk, hdk⟩)
          · exact ⟨by omega, hdrp⟩
          · exact ⟨by omega, hdk⟩
      have hnotmem : rp ∉ (Finset.range rp).filter fun k => depthOf M par k = r := by
        simp [Finset.mem_filter]
      rw [hset, Finset.card_insert_of_not_mem hnotmem]
      have hcard : ((Finset.range rp).filter fun k => depthOf M par k = r).card ≤ rp := by
        calc ((Finset.range rp).filter fun k => depthOf M par k = r).card
            ≤ (Finset.range rp).card := Finset.card_filter_le _ _
          _ = rp := Finset.card_range rp
      rw [ih (used + 1) arr (fun k hk => hlow k (by omega)) (by omega)]
      simp only [Prod.mk.injEq]
      constructor <;> omega
    · rw [if_neg hr]
      have hgt : r < depthOf M par rp := by omega
      have hempty : (Finset.range (rp + 1)).filter (fun k => depthOf M par k = r)
          = ∅ := by
        ext k
        simp only [Finset.mem_filter, Finset.mem_range, Finset.not_mem_empty, iff_false,
          not_and]
        intro hk
        have := depthOf_antitone ps (M - 2 - k) k rfl rp (by omega) (by omega)
        omega
      rw [hempty]
      simp

/-- The phase-3 fill loop: it writes `depth` into positions
`next - c + 1 .. next` (all positions up to `next` when `c = next + 1`,
in which case the cursor wraps below zero). -/
theorem moffatFill_spec (depth : ℕ) :
    ∀ c next arr, c ≤ next + 1 → next < U32 →
    (moffatFill depth c next arr).2.length = arr.length ∧
    (∀ p, p ≤ next → next < p + c → (moffatFill depth c next arr).2.getD p 0
      = if p < arr.length then depth else 0) ∧
    (∀ p, p + c ≤ next → (moffatFill depth c next arr).2.getD p 0 = arr.getD p 0) ∧
    (∀ p, next < p → (moffatFill depth c next arr).2.getD p 0 = arr.getD p 0) ∧
    (moffatFill depth c next arr).1 = (if c = next + 1 then U32 - 1 else next - c) := by
  intro c
  induction c with
  | zero =>
    intro next arr _ hnext
    refine ⟨rfl, fun p hp hpc => by omega, fun p _ => rfl, fun p _ => rfl, ?_⟩
    show next = if (0 : ℕ) = next + 1 then U32 - 1 else next - 0
    rw [if_neg (by omega)]
    omega
  | succ c ih =>
    intro next arr hc hnext
    have hunf : moffatFill depth (c + 1) next arr
        = moffatFill depth c (usub32 next 1) (arr.set next depth) := rfl
    rcases Nat.eq_zero_or_pos next with hz | hpos
    · -- next = 0 : write position 0, the cursor wraps, and c must be 0
      subst hz
      have hc0 : c = 0 := by omega
      subst hc0
      have hwrap : usub32 0 1 = U32 - 1 := by
        unfold usub32 U32
        omega
      rw [hunf, hwrap]
      refine ⟨by simp [moffatFill], ?_, ?_, ?_, ?_⟩
      · intro p hp hpc
        have hp0 : p = 0 := by omega
        subst hp0
        show (arr.set 0 depth).getD 0 0 = _
        rcases Nat.eq_zero_or_pos arr.length with hl | hl
        · rw [if_neg (by omega)]
          have harr : arr = [] := List.length_eq_zero.mp hl
          subst harr
          rfl
        · rw [if_pos (by omega)]
          exact getD_set_self (by omega)
      · intro p hp
        omega
      · intro p hp
        show (arr.set 0 depth).getD p 0 = arr.getD p 0
        exact getD_set_ne (by omega)
      · show U32 - 1 = _
        rw [if_pos rfl]
    · -- next ≥ 1 : write at next, recurse at next - 1
      have hsub : usub32 next 1 = next - 1 := usub32_small (by omega) hnext
      obtain ⟨l1, l2, l3, l4, l5⟩ := ih (next - 1) (arr.set next depth) (by omega)
        (by omega)
      rw [hunf, hsub]
      refine ⟨by rw [l1]; simp, ?_, ?_, ?_, ?_⟩
      · intro p hp hpc
        rcases Nat.eq_or_lt_of_le hp with heq | hlt
        · subst heq
          rw [l4 p (by omega)]
          rcases Nat.lt_or_ge p arr.length with h | h
          · rw [if_pos h]
            exact getD_set_self h
          · rw [if_neg (by omega)]
            exact getD_oob (by simp only [List.length_set]; omega)
        · have := l2 p (by omega) (by omega)
          rw [List.length_set] at this
          exact this
      · intro p hp
        have := l3 p (by omega)
        rw [this, getD_set_ne (by omega)]
      · intro p hp
        have := l4 p (by omega)
        rw [this, getD_set_ne (by omega)]
      · rw [l5]
        rcases Nat.eq_or_lt_of_le hc with heq | hlt
        · rw [if_pos (by omega), if_pos (by omega)]
        · rw [if_neg (by omega), if_neg (by omega)]
          omega

/-- The outcome of Moffat's algorithm on `M ≥ 2` codes: code lengths in
descending order, all in `[1, maxv]`, the first entry is the maximum
`maxv`, and the Kraft sum is exactly 1. -/
def MoffatOut (M maxv : ℕ) (arr : List ℕ) : Prop :=
  arr.length = M ∧
  (∀ p q, p ≤ q → q < M → arr.getD q 0 ≤ arr.getD p 0) ∧
  (∀ p, p < M → 1 ≤ arr.getD p 0 ∧ arr.getD p 0 ≤ maxv) ∧
  arr.getD 0 0 = maxv ∧
  (∑ p ∈ Finset.range M, ((2 : ℚ)) ^ (-(arr.getD p 0 : ℤ))) = 1

/-- The invariant of the phase-3 outer loop at the start of the round for
depth `r`. -/
structure Sp3Inv (M : ℕ) (par : ℕ → ℕ) (r avail root2pos next : ℕ)
    (arr : List ℕ) : Prop where
  hlen : arr.length = M
  hr2 : root2pos + belowD M par r = M - 1
  hlow : ∀ k, k < root2pos → arr.getD k 0 = depthOf M par k ∧ r ≤ depthOf M par k
  htop : 0 < root2pos → depthOf M par (root2pos - 1) = r
  hhigh : ∀ k, root2pos ≤ k → k ≤ M - 2 → depthOf M par k < r
  havail : (r = 0 ∧ avail = 1) ∨ (0 < r ∧ avail = 2 * cntD M par (r - 1))
  hrB : r ≤ depthOf M par 0 + 1
  hnr : next + 1 = root2pos + avail
  hnextM : next < M
  hsufv : ∀ p, next < p → p < M → 1 ≤ arr.getD p 0 ∧ arr.getD p 0 < r
  hsufd : ∀ p q, next < p → p ≤ q → q < M → arr.getD q 0 ≤ arr.getD p 0
  hphi : (∑ p ∈ Finset.Ico (next + 1) M, ((2 : ℚ)) ^ (-(arr.getD p 0 : ℤ)))
      + (avail : ℚ) * ((2 : ℚ)) ^ (-(r : ℤ)) = 1

theorem moffatSpread_avail_zero : ∀ fuel used depth root2pos next arr,
    moffatSpread fuel 0 used depth root2pos next arr = arr := by
  intro fuel used depth root2pos next arr
  cases fuel with
  | zero => rfl
  | succ f => simp [moffatSpread]

theorem two_zpow_step (r : ℕ) :
    ((2 : ℚ)) ^ (-(r : ℤ)) = 2 * ((2 : ℚ)) ^ (-((r : ℤ) + 1)) := by
  have h : (-(r : ℤ)) = (-((r : ℤ) + 1)) + 1 := by ring
  rw [h, zpow_add₀ (two_ne_zero)]
  ring

/-- The main phase-3 theorem: from a valid round state the loop produces
the final output description. -/
theorem moffatSpread_spec {M : ℕ} {par : ℕ → ℕ} (ps : ParentStruct M par)
    (h2 : 2 ≤ M) (h256 : M ≤ 256) :
    ∀ fuel r avail root2pos next arr,
    Sp3Inv M par r avail root2pos next arr →
    depthOf M par 0 + 2 ≤ fuel + r →
    MoffatOut M (depthOf M par 0 + 1)
      (moffatSpread fuel avail 0 (u8 r) root2pos next arr) := by
  intro fuel
  induction fuel with
  | zero =>
    intro r avail root2pos next arr inv hfuel
    have := inv.hrB
    omega
  | succ f ih =>
    intro r avail root2pos next arr inv hfuel
    obtain ⟨hlen, hr2, hlow, htop, hhigh, havail, hrB, hnr, hnextM, hsufv, hsufd, hphi⟩ := inv
    have hmaxd : depthOf M par 0 ≤ M - 2 := depthOf_le ps (M - 2 - 0) 0 rfl
    have hr255 : r < 256 := by omega
    have hu8 : u8 r = r := Nat.mod_eq_of_lt hr255
    have havailpos : 0 < avail := by
      rcases havail with ⟨_, ha⟩ | ⟨hr0, ha⟩
      · omega
      · have : 0 < cntD M par (r - 1) := cntD_pos ps h2 (by omega)
        omega
    have hr2M : root2pos ≤ M - 1 := by omega
    -- the consume loop removes exactly the block of depth `r`
    have hcons := moffatConsume_spec ps r root2pos 0 arr hlow hr2M
    set t := ((Finset.range root2pos).filter fun k => depthOf M par k = r).card with hts
    have htle : t ≤ root2pos := by
      calc t ≤ (Finset.range root2pos).card := Finset.card_filter_le _ _
        _ = root2pos := Finset.card_range root2pos
    have htcnt : t = cntD M par r := by
      rw [hts]
      unfold cntD
      congr 1
      ext k
      simp only [Finset.mem_filter, Finset.mem_range]
      constructor
      · rintro ⟨hk, hd⟩
        exact ⟨by omega, hd⟩
      · rintro ⟨hk, hd⟩
        refine ⟨?_, hd⟩
        by_contra hge
        have := hhigh k (by omega) (by omega)
        omega
    have hcle : cntD M par r ≤ avail := by
      rcases havail with ⟨hr0, ha⟩ | ⟨hr0, ha⟩
      · subst hr0
        rw [cntD_zero ps h2, ha]
      · have := cntD_succ_le ps (r - 1)
        have hind : r - 1 + 1 = r := by omega
        rw [hind] at this
        omega
    have hunf : moffatSpread (f + 1) avail 0 (u8 r) root2pos next arr
        = moffatSpread f (2 * (moffatConsume arr (u8 r) root2pos 0).2) 0
            (u8 (u8 r + 1)) (moffatConsume arr (u8 r) root2pos 0).1
            (moffatFill (u8 r) (avail - (moffatConsume arr (u8 r) root2pos 0).2) next arr).1
            (moffatFill (u8 r) (avail - (moffatConsume arr (u8 r) root2pos 0).2) next arr).2
        := by
      show (if avail = 0 then arr else _) = _
      rw [if_neg (by omega)]
    have hc1 : (moffatConsume arr r root2pos 0).1 = root2pos - t := by
      rw [hcons]
    have hc2 : (moffatConsume arr r root2pos 0).2 = t := by
      simp [hcons]
    rw [hunf, hu8, hc1, hc2]
    have hnextU : next < U32 := by
      unfold U32
      omega
    obtain ⟨f1, f2, f3, f4, f5⟩ :=
      moffatFill_spec r (avail - t) next arr (by omega) hnextU
    rcases Nat.eq_zero_or_pos root2pos with hrz | hrpos
    · -- final round: all internal nodes consumed, fill the remaining
      -- `next + 1 = avail` slots and stop (the new avail is 0)
      have htz : t = 0 := by
        rw [hts, hrz]
        simp
      have hravail : avail = next + 1 := by omega
      have hrmax : r = depthOf M par 0 + 1 := by
        have := hhigh 0 (by omega) (by omega)
        omega
      rw [show 2 * t = 0 by omega, moffatSpread_avail_zero]
      have hwrote : ∀ p, p ≤ next → (moffatFill r (avail - t) next arr).2.getD p 0 = r := by
        intro p hp
        rw [f2 p hp (by omega), if_pos (by omega)]
      have hkept : ∀ p, next < p → (moffatFill r (avail - t) next arr).2.getD p 0
          = arr.getD p 0 := fun p hp => f4 p hp
      refine ⟨by rw [f1, hlen], ?_, ?_, ?_, ?_⟩
      · intro p q hpq hq
        rcases Nat.lt_or_ge next p with h1 | h1
        · rw [hkept p (by omega), hkept q (by omega)]
          exact hsufd p q h1 hpq hq
        · rcases Nat.lt_or_ge next q with h2 | h2
          · rw [hwrote p h1, hkept q h2]
            have := hsufv q h2 hq
            omega
          · rw [hwrote p h1, hwrote q h2]
      · intro p hp
        rcases Nat.lt_or_ge next p with h1 | h1
        · rw [hkept p h1]
          have := hsufv p h1 hp
          omega
        · rw [hwrote p h1]
          omega
      · rw [hwrote 0 (by omega), hrmax]
      · -- Kraft sum: the suffix contributes 1 - avail·2^(-r), the filled
        -- prefix contributes (next+1)·2^(-r) = avail·2^(-r)
        have hsplit : Finset.range M = Finset.Ico 0 M := by
          rw [Finset.range_eq_Ico]
        rw [hsplit, ← Finset.sum_Ico_consecutive _ (Nat.zero_le (next + 1)) (by omega)]
        have hsum1 : (∑ p ∈ Finset.Ico 0 (next + 1),
            ((2 : ℚ)) ^ (-((moffatFill r (avail - t) next arr).2.getD p 0 : ℤ)))
            = (avail : ℚ) * ((2 : ℚ)) ^ (-(r : ℤ)) := by
          have hconst : ∀ p ∈ Finset.Ico 0 (next + 1),
              ((2 : ℚ)) ^ (-((moffatFill r (avail - t) next arr).2.getD p 0 : ℤ))
              = ((2 : ℚ)) ^ (-(r : ℤ)) := by
            intro p hp
            rw [Finset.mem_Ico] at hp
            rw [hwrote p (by omega)]
          rw [Finset.sum_congr rfl hconst, Finset.sum_const, Nat.card_Ico, nsmul_eq_mul]
          congr 1
          rw [hravail]
          push_cast
          ring
        have hsum2 : (∑ p ∈ Finset.Ico (next + 1) M,
            ((2 : ℚ)) ^ (-((moffatFill r (avail - t) next arr).2.getD p 0 : ℤ)))
            = ∑ p ∈ Finset.Ico (next + 1) M, ((2 : ℚ)) ^ (-(arr.getD p 0 : ℤ)) := by
          apply Finset.sum_congr rfl
          intro p hp
          rw [Finset.mem_Ico] at hp
          rw [hkept p (by omega)]
        rw [hsum1, hsum2]
        linarith [hphi]
    · -- regular round r ≤ maxd: establish the invariant at r + 1 and recurse
      have hrle : r ≤ depthOf M par 0 := by
        have h1 := htop hrpos
        have h2 := depthOf_le_max ps (root2pos - 1) (by omega)
        omega
      have htpos : 0 < t := by
        rw [htcnt]
        exact cntD_pos ps h2 hrle
      -- every slot of the consumed block has depth exactly r
      have hblock : ∀ j, root2pos - t ≤ j → j < root2pos → depthOf M par j = r := by
        intro j hj1 hj2
        by_contra hne
        have hge : r < depthOf M par j := by
          have := (hlow j hj2).2
          omega
        -- all indices ≤ j then have depth > r, so the fiber fits strictly
        -- above j, contradicting its cardinality
        have hsub : ((Finset.range root2pos).filter fun k => depthOf M par k = r)
            ⊆ Finset.Ico (j + 1) root2pos := by
          intro k hk
          rw [Finset.mem_filter, Finset.mem_range] at hk
          rw [Finset.mem_Ico]
          refine ⟨?_, hk.1⟩
          by_contra hlt
          have hkj : k ≤ j := by omega
          have := depthOf_antitone ps (M - 2 - k) k rfl j hkj (by omega)
          omega
        have := Finset.card_le_card hsub
        rw [Nat.card_Ico] at this
        omega
      have hlow' : ∀ k, k < root2pos - t →
          arr.getD k 0 = depthOf M par k ∧ r + 1 ≤ depthOf M par k := by
        intro k hk
        refine ⟨(hlow k (by omega)).1, ?_⟩
        have hge := (hlow k (by omega)).2
        by_contra hlt
        have hdk : depthOf M par k = r := by omega
        -- then the whole interval [k, root2pos) maps to depth r and the
        -- fiber is too large
        have hsub : Finset.Ico k root2pos ⊆
            ((Finset.range root2pos).filter fun j => depthOf M par j = r) := by
          intro j hj
          rw [Finset.mem_Ico] at hj
          rw [Finset.mem_filter, Finset.mem_range]
          refine ⟨hj.2, ?_⟩
          have hle1 := depthOf_antitone ps (M - 2 - k) k rfl j hj.1 (by omega)
          have hge1 := (hlow j hj.2).2
          omega
        have := Finset.card_le_card hsub
        rw [Nat.card_Ico] at this
        omega
      have hhigh' : ∀ k, root2pos - t ≤ k → k ≤ M - 2 → depthOf M par k < r + 1 := by
        intro k hk1 hk2
        rcases Nat.lt_or_ge k root2pos with h | h
        · rw [hblock k hk1 h]
          omega
        · have := hhigh k h hk2
          omega
      have htop' : 0 < root2pos - t → depthOf M par (root2pos - t - 1) = r + 1 := by
        intro hpos'
        have hge : r + 1 ≤ depthOf M par (root2pos - t - 1) :=
          (hlow' (root2pos - t - 1) (by omega)).2
        have hne2 : root2pos - t - 1 < M - 2 := by
          by_contra hcon
          have heq : root2pos - t - 1 = M - 2 ∧ root2pos - t = M - 1 := by omega
          have : depthOf M par (M - 2) = 0 := depthOf_stop _ (le_refl _)
          rw [heq.1] at hge
          omega
        have hpar1 := ps.hgt _ hne2
        have hpar2 := ps.hle _ hne2
        have hparc := depthOf_succ ps _ hne2
        have := hhigh' (par (root2pos - t - 1)) (by omega) hpar2
        omega
      have hnext' : (moffatFill r (avail - t) next arr).1 = next - (avail - t) := by
        rw [f5, if_neg (by omega)]
      rw [hnext']
      have hphi' : (∑ p ∈ Finset.Ico (next - (avail - t) + 1) M,
            ((2 : ℚ)) ^ (-((moffatFill r (avail - t) next arr).2.getD p 0 : ℤ)))
          + ((2 * t : ℕ) : ℚ) * ((2 : ℚ)) ^ (-((r + 1 : ℕ) : ℤ)) = 1 := by
        rw [← Finset.sum_Ico_consecutive _
          (show next - (avail - t) + 1 ≤ next + 1 by omega) (by omega)]
        have hsA : (∑ p ∈ Finset.Ico (next - (avail - t) + 1) (next + 1),
            ((2 : ℚ)) ^ (-((moffatFill r (avail - t) next arr).2.getD p 0 : ℤ)))
            = ((avail - t : ℕ) : ℚ) * ((2 : ℚ)) ^ (-(r : ℤ)) := by
          have hconst : ∀ p ∈ Finset.Ico (next - (avail - t) + 1) (next + 1),
              ((2 : ℚ)) ^ (-((moffatFill r (avail - t) next arr).2.getD p 0 : ℤ))
              = ((2 : ℚ)) ^ (-(r : ℤ)) := by
            intro p hp
            rw [Finset.mem_Ico] at hp
            rw [f2 p (by omega) (by omega), if_pos (by omega)]
          rw [Finset.sum_congr rfl hconst, Finset.sum_const, Nat.card_Ico, nsmul_eq_mul]
          congr 2
          omega
        have hsB : (∑ p ∈ Finset.Ico (next + 1) M,
            ((2 : ℚ)) ^ (-((moffatFill r (avail - t) next arr).2.getD p 0 : ℤ)))
            = ∑ p ∈ Finset.Ico (next + 1) M, ((2 : ℚ)) ^ (-(arr.getD p 0 : ℤ)) := by
          apply Finset.sum_congr rfl
          intro p hp
          rw [Finset.mem_Ico] at hp
          rw [f4 p (by omega)]
        rw [hsA, hsB]
        have hstep := two_zpow_step r
        have havt : ((avail - t : ℕ) : ℚ) = (avail : ℚ) - (t : ℚ) :=
          Nat.cast_sub (by omega)
        push_cast [havt]
        push_cast at hphi hstep
        linear_combination hphi - (t : ℚ) * hstep
      have inv' : Sp3Inv M par (r + 1) (2 * t) (root2pos - t)
          (next - (avail - t)) (moffatFill r (avail - t) next arr).2 := by
        refine ⟨by rw [f1, hlen], ?_, ?_, htop', hhigh', ?_, by omega, ?_, by omega,
          ?_, ?_, ?_⟩
        · rw [belowD_succ, ← htcnt]
          omega
        · intro k hk
          have hfill := f3 k (by omega)
          rw [hfill]
          exact ⟨(hlow' k hk).1, (hlow' k hk).2⟩
        · right
          rw [Nat.add_sub_cancel, ← htcnt]
          exact ⟨by omega, rfl⟩
        · omega
        · intro p hp hpM
          rcases Nat.lt_or_ge next p with h | h
          · rw [f4 p h]
            have := hsufv p h hpM
            omega
          · rw [f2 p (by omega) (by omega), if_pos (by omega)]
            omega
        · intro p q hp hpq hq
          rcases Nat.lt_or_ge next p with h1 | h1
          · rw [f4 p h1, f4 q (by omega)]
            exact hsufd p q h1 hpq hq
          · rcases Nat.lt_or_ge next q with h2 | h2
            · rw [f2 p (by omega) (by omega), if_pos (by omega), f4 q h2]
              have := hsufv q h2 hq
              omega
            · rw [f2 p (by omega) (by omega), if_pos (by omega),
                f2 q (by omega) (by omega), if_pos (by omega)]
        · exact hphi'
      exact ih (r + 1) (2 * t) (root2pos - t) (next - (avail - t))
        (moffatFill r (avail - t) next arr).2 inv' (by omega)

/-- Full correctness of `moffatSortedInPlace` for `2 ≤ M ≤ 256` codes
(the bound 256 keeps the `unsigned char` depth counter and return value
below their wrap-around; the weights themselves are arbitrary, since the
output's structural validity does not depend on the input being sorted or
on the 32-bit additions not wrapping).  The result array is a descending
list of code lengths in `[1, M-1]` whose Kraft sum is exactly 1, its head
is the maximum, and the returned value equals that head. -/
theorem moffatSortedInPlace_spec (M : ℕ) (arr : List ℕ) (h2 : 2 ≤ M)
    (h256 : M ≤ 256) (hlen : arr.length = M) :
    MoffatOut M ((moffatSortedInPlace M arr).2.getD 0 0) (moffatSortedInPlace M arr).2 ∧
    (moffatSortedInPlace M arr).1 = (moffatSortedInPlace M arr).2.getD 0 0 ∧
    1 ≤ (moffatSortedInPlace M arr).1 ∧ (moffatSortedInPlace M arr).1 ≤ M - 1 := by
  have hM0 : M ≠ 0 := by omega
  have hM1 : M ≠ 1 := by omega
  have hunf : moffatSortedInPlace M arr
      = (u8 ((moffatSpread (M + 2) 1 0 0 (M - 1) (M - 1)
          (moffatPhase2 ((moffatCombine M 0 0 0 (M - 1) arr).set (M - 2) 0)
            (M - 2))).getD 0 0),
         moffatSpread (M + 2) 1 0 0 (M - 1) (M - 1)
          (moffatPhase2 ((moffatCombine M 0 0 0 (M - 1) arr).set (M - 2) 0)
            (M - 2))) := by
    unfold moffatSortedInPlace
    rw [if_neg hM0, if_neg hM1]
  -- phase 1
  have inv0 : MoffatP1 M 0 0 0 arr :=
    ⟨hlen, by omega, le_refl 0, by omega, by omega,
     fun k hk => absurd hk (by omega),
     fun k k' _ hk' => absurd hk' (by omega),
     fun k hk => absurd hk (by omega)⟩
  obtain ⟨lf, rt, invF, hlf, hrt⟩ := moffatCombine_inv h2 (M - 1) 0 0 0 arr inv0 (by omega)
  set A1 := moffatCombine M 0 0 0 (M - 1) arr with hA1
  set par := fun k => A1.getD k 0 with hpar
  have ps : ParentStruct M par := by
    subst hrt
    refine ⟨?_, ?_, ?_, ?_⟩
    · intro k hk
      exact (invF.hpar k hk).1
    · intro k hk
      have hpk : par k = A1.getD k 0 := rfl
      rw [hpk]
      have := (invF.hpar k hk).2
      omega
    · intro k k' hkk hk'
      exact invF.hmono k k' hkk hk'
    · intro k hk
      exact invF.hsep k hk
  have hA1len : A1.length = M := invF.hlen
  -- phase 2
  have hMu : M < 2 ^ 32 := by omega
  have hsetlen : (A1.set (M - 2) 0).length = M := by simp [hA1len]
  obtain ⟨p2len, p2val, p2hi⟩ := moffatPhase2_spec ps hMu (M - 2)
    (A1.set (M - 2) 0) (le_refl _) hsetlen
    (fun k hk => by
      rw [getD_set_ne (by omega)])
    (fun k hk1 hk2 => by
      have hkeq : k = M - 2 := by omega
      subst hkeq
      rw [getD_set_self (by omega), depthOf_stop _ (le_refl _)])
  set A2 := moffatPhase2 ((moffatCombine M 0 0 0 (M - 1) arr).set (M - 2) 0) (M - 2)
    with hA2
  -- phase 3
  have hmaxd : depthOf M par 0 ≤ M - 2 := depthOf_le ps (M - 2 - 0) 0 rfl
  have inv3 : Sp3Inv M par 0 1 (M - 1) (M - 1) A2 := by
    refine ⟨p2len, ?_, ?_, ?_, ?_, Or.inl ⟨rfl, rfl⟩, by omega, rfl, by omega,
      ?_, ?_, ?_⟩
    · rw [belowD_zero]
      omega
    · intro k hk
      exact ⟨p2val k (by omega), Nat.zero_le _⟩
    · intro _
      exact depthOf_stop _ (le_refl _)
    · intro k hk1 hk2
      omega
    · intro p hp hpM
      omega
    · intro p q hp hpq hq
      omega
    · have : Finset.Ico (M - 1 + 1) M = ∅ := by
        apply Finset.Ico_eq_empty
        omega
      rw [this]
      simp
  have hspread := moffatSpread_spec ps h2 h256 (M + 2) 0 1 (M - 1) (M - 1) A2 inv3
    (by omega)
  have hu8z : u8 0 = 0 := rfl
  rw [hu8z] at hspread
  rw [hunf]
  dsimp only
  set A3 := moffatSpread (M + 2) 1 0 0 (M - 1) (M - 1) A2 with hA3
  obtain ⟨o1, o2, o3, o4, o5⟩ := hspread
  have hmax : A3.getD 0 0 = depthOf M par 0 + 1 := o4
  have hu8max : u8 (A3.getD 0 0) = A3.getD 0 0 := by
    apply Nat.mod_eq_of_lt
    omega
  refine ⟨⟨o1, o2, ?_, rfl, o5⟩, ?_, ?_, ?_⟩
  · intro p hp
    have := o3 p hp
    omega
  · exact hu8max
  · rw [hu8max]
    omega
  · rw [hu8max]
    omega

example : moffatSortedInPlace 3 [1, 2, 5] = (2, [2, 2, 1]) := by decide

example : (moffatSortedInPlace 4 [1, 1, 2, 5]).1 = 3 := by decide

example : (moffatSortedInPlace 4 [1, 1, 2, 5]).2 = [3, 3, 2, 1] := by decide

/-- C5 (code bug).  The budget `one` in limitedKraft (limitedkraft.c line
117) and limitedKraftHeap (limitedkraftheap.c line 235) is computed as
`1 << maxLength` with an `int` left operand, so it does not equal the
mathematical `2^maxLength` once `maxLength ≥ 31` (at 31 the signed shift
overflows; from 32 on the platform reduces the count mod 32): at
`maxLength = 32` the code yields 1, not `2^32`.  Likewise the collapse
total of limitedMinizInPlace (limitedjpegdeflate.c line 162) shifts an
`unsigned int` by `newL − i`, which for `newL = 33`, `i = 1` is a shift by
32 and yields `bits[1]`, not `bits[1] · 2^32`: on the histogram `[0, 1]`
the computed total is 1 instead of `2^32`.  For `maxLength ≤ 30` the
budget is exact. -/
theorem C5_int_shift_not_exact :
    oneInt32 32 = 1 ∧ (1 : ℕ) ≠ 2 ^ 32 ∧
    oneInt32 31 = 2 ^ 64 - 2 ^ 31 ∧ (2 ^ 64 - 2 ^ 31 : ℕ) ≠ 2 ^ 31 ∧
    minizTotal 33 [0, 1] 33 = 1 ∧ (1 : ℕ) ≠ 2 ^ 32 ∧
    (∀ L : ℕ, L ≤ 30 → oneInt32 L = 2 ^ L) := by
  refine ⟨by decide, by decide, by decide, by decide, by decide, by decide, ?_⟩
  intro L hL
  have h32 : L % 32 = L := Nat.mod_eq_of_lt (by omega)
  unfold oneInt32
  rw [h32]
  have : ¬ L = 31 := by omega
  simp [this]

/-! ### A pathological input for moffatSortedInPlace

257 equal weights `2^32 - 1`.  The wrapping 32-bit additions of the
combine phase make every freshly combined node strictly lighter than all
remaining leaves, so the tree degenerates to a caterpillar of depth 256;
the `unsigned char` depth counter of the spread phase then wraps to 0 in
its final round, the function writes length 0 into `A[1]` and `A[0]` and
returns 0, and the buffer `0, 0, 255, 254, ...` is not in descending
order.  (For `numCodes ≤ 256` the depth counter cannot wrap and
`moffatSortedInPlace_spec` applies.) -/

def catF : ℕ := 2 ^ 32 - 1

theorem getD_replicate {n k a : ℕ} (h : k < n) :
    (List.replicate n a).getD k 0 = a := by
  simp [List.getD, List.getElem?_replicate, h]

/-- One combine iteration on the caterpillar state: the pending root
(weight `2^32 - (n+1)`) is lighter than every remaining leaf, so it is
taken as first child, a fresh leaf as second, and the wrapped sum is
`2^32 - (n+2)`. -/
theorem catCombineStep (n : ℕ) (arr : List ℕ) (h1 : 1 ≤ n) (h255 : n ≤ 255)
    (hlen : arr.length = 257)
    (hmid : arr.getD (n - 1) 0 = 2 ^ 32 - (n + 1))
    (hhigh : ∀ k, n ≤ k → k < 257 → arr.getD k 0 = catF) :
    moffatCombineStep 257 n (n + 1) (n - 1) arr
      = (n + 2, n, ((arr.set (n - 1) n).set n (2 ^ 32 - (n + 1))).set n
          (2 ^ 32 - (n + 2))) := by
  have hpw : (2 : ℕ) ^ 32 = 4294967296 := by norm_num
  have hlf : arr.getD (n + 1) 0 = catF := hhigh (n + 1) (by omega) (by omega)
  have hc1 : moffatChild 257 n (n + 1) (n - 1) arr
      = (arr.getD (n - 1) 0, n + 1, (n - 1) + 1, arr.set (n - 1) n) := by
    unfold moffatChild
    rw [if_pos (Or.inr ⟨by omega, by
      rw [hmid, hlf]; simp only [catF, hpw]; omega⟩)]
  have hXg : ((arr.set (n - 1) n).set n (2 ^ 32 - (n + 1))).getD (n + 1) 0
      = catF := by
    rw [getD_set_ne (by omega), getD_set_ne (by omega)]
    exact hlf
  have hc2 : moffatChild 257 n (n + 1) ((n - 1) + 1)
        ((arr.set (n - 1) n).set n (2 ^ 32 - (n + 1)))
      = (catF, n + 1 + 1, (n - 1) + 1,
         (arr.set (n - 1) n).set n (2 ^ 32 - (n + 1))) := by
    unfold moffatChild
    rw [if_neg (by rintro (h | ⟨h, _⟩) <;> omega), hXg]
  have hstep : moffatCombineStep 257 n (n + 1) (n - 1) arr
      = (let c1 := moffatChild 257 n (n + 1) (n - 1) arr
         let a1 := c1.2.2.2.set n c1.1
         let c2 := moffatChild 257 n c1.2.1 c1.2.2.1 a1
         (c2.2.1, c2.2.2.1, c2.2.2.2.set n (u32 (c2.2.2.2.getD n 0 + c2.1)))) :=
    rfl
  rw [hstep, hc1]
  dsimp only
  rw [hmid, hc2]
  dsimp only
  have hXn : ((arr.set (n - 1) n).set n (2 ^ 32 - (n + 1))).getD n 0
      = 2 ^ 32 - (n + 1) :=
    getD_set_self (by rw [List.length_set, hlen]; omega)
  rw [hXn]
  have hu : u32 (2 ^ 32 - (n + 1) + catF) = 2 ^ 32 - (n + 2) := by
    simp only [u32, U32, catF, hpw]
    omega
  rw [hu]
  have hn1 : (n - 1) + 1 = n := by omega
  rw [hn1]

/-- The combine phase on the caterpillar state, from iteration `n ≥ 1` to
the end: the final array holds parent pointer `k + 1` at every `k < 255`,
the wrapped root weight `2^32 - 257` at 255, and the untouched leaf
weight at 256. -/
theorem catCombine : ∀ m n arr, m + n = 256 → 1 ≤ n → arr.length = 257 →
    (∀ k, k + 1 < n → arr.getD k 0 = k + 1) →
    arr.getD (n - 1) 0 = 2 ^ 32 - (n + 1) →
    (∀ k, n ≤ k → k < 257 → arr.getD k 0 = catF) →
    (moffatCombine 257 n (n + 1) (n - 1) m arr).length = 257 ∧
    (∀ k, k < 255 →
      (moffatCombine 257 n (n + 1) (n - 1) m arr).getD k 0 = k + 1) ∧
    (moffatCombine 257 n (n + 1) (n - 1) m arr).getD 255 0 = 2 ^ 32 - 257 ∧
    (moffatCombine 257 n (n + 1) (n - 1) m arr).getD 256 0 = catF := by
  intro m
  induction m with
  | zero =>
    intro n arr hmn h1 hlen hlow hmid hhigh
    have hn : n = 256 := by omega
    subst hn
    refine ⟨hlen, ?_, ?_, ?_⟩
    · intro k hk
      exact hlow k (by omega)
    · exact hmid
    · exact hhigh 256 (by omega) (by omega)
  | succ m ih =>
    intro n arr hmn h1 hlen hlow hmid hhigh
    have h255 : n ≤ 255 := by omega
    have hstep := catCombineStep n arr h1 h255 hlen hmid hhigh
    have hunf : moffatCombine 257 n (n + 1) (n - 1) (m + 1) arr
        = moffatCombine 257 (n + 1) (moffatCombineStep 257 n (n + 1) (n - 1) arr).1
            (moffatCombineStep 257 n (n + 1) (n - 1) arr).2.1 m
            (moffatCombineStep 257 n (n + 1) (n - 1) arr).2.2 := rfl
    rw [hunf, hstep]
    dsimp only
    set X := ((arr.set (n - 1) n).set n (2 ^ 32 - (n + 1))).set n
        (2 ^ 32 - (n + 2)) with hX
    have hXlen : X.length = 257 := by
      rw [hX]
      simp [hlen]
    have hXlow : ∀ k, k + 1 < n + 1 → X.getD k 0 = k + 1 := by
      intro k hk
      rw [hX]
      rcases Nat.lt_or_ge k (n - 1) with hkn | hkn
      · rw [getD_set_ne (by omega), getD_set_ne (by omega),
            getD_set_ne (by omega)]
        exact hlow k (by omega)
      · have hke : k = n - 1 := by omega
        subst hke
        rw [getD_set_ne (by omega), getD_set_ne (by omega),
            getD_set_self (by rw [hlen]; omega)]
        omega
    have hXmid : X.getD ((n + 1) - 1) 0 = 2 ^ 32 - ((n + 1) + 1) := by
      have he : (n + 1) - 1 = n := by omega
      rw [hX, he,
          getD_set_self (by rw [List.length_set, List.length_set, hlen]; omega)]
    have hXhigh : ∀ k, n + 1 ≤ k → k < 257 → X.getD k 0 = catF := by
      intro k hk1 hk2
      rw [hX, getD_set_ne (by omega), getD_set_ne (by omega),
          getD_set_ne (by omega)]
      exact hhigh k (by omega) hk2
    have hres := ih (n + 1) X (by omega) (by omega) hXlen hXlow hXmid hXhigh
    have he2 : (n + 1) - 1 = n := by omega
    rw [he2] at hres
    exact hres

/-- One-step unfolding of the combine loop. -/
theorem moffatCombine_succ (numCodes next leaf root n : ℕ) (arr : List ℕ) :
    moffatCombine numCodes next leaf root (n + 1) arr
      = moffatCombine numCodes (next + 1)
          (moffatCombineStep numCodes next leaf root arr).1
          (moffatCombineStep numCodes next leaf root arr).2.1 n
          (moffatCombineStep numCodes next leaf root arr).2.2 := rfl

/-- The combine phase on 257 equal weights `2^32 - 1`, from the start. -/
theorem catCombineAll :
    (moffatCombine 257 0 0 0 256 (List.replicate 257 catF)).length = 257 ∧
    (∀ k, k < 255 →
      (moffatCombine 257 0 0 0 256 (List.replicate 257 catF)).getD k 0 = k + 1) ∧
    (moffatCombine 257 0 0 0 256 (List.replicate 257 catF)).getD 255 0
      = 2 ^ 32 - 257 ∧
    (moffatCombine 257 0 0 0 256 (List.replicate 257 catF)).getD 256 0
      = catF := by
  set inp := List.replicate 257 catF with hinp
  have hrep : ∀ k, k < 257 → inp.getD k 0 = catF := by
    intro k hk
    rw [hinp]
    exact getD_replicate hk
  have hc1 : moffatChild 257 0 0 0 inp = (inp.getD 0 0, 1, 0, inp) := by
    unfold moffatChild
    rw [if_neg (by rintro (h | ⟨h, _⟩) <;> omega)]
  have hc2 : moffatChild 257 0 1 0 (inp.set 0 catF)
      = ((inp.set 0 catF).getD 1 0, 2, 0, inp.set 0 catF) := by
    unfold moffatChild
    rw [if_neg (by rintro (h | ⟨h, _⟩) <;> omega)]
  have hg0 : (inp.set 0 catF).getD 0 0 = catF :=
    getD_set_self (by rw [hinp, List.length_replicate]; norm_num)
  have hg1 : (inp.set 0 catF).getD 1 0 = catF := by
    rw [getD_set_ne (by omega)]
    exact hrep 1 (by omega)
  have hstep0 : moffatCombineStep 257 0 0 0 inp
      = (2, 0, (inp.set 0 catF).set 0
          (u32 ((inp.set 0 catF).getD 0 0 + (inp.set 0 catF).getD 1 0))) := by
    have h : moffatCombineStep 257 0 0 0 inp
        = (let c1 := moffatChild 257 0 0 0 inp
           let a1 := c1.2.2.2.set 0 c1.1
           let c2 := moffatChild 257 0 c1.2.1 c1.2.2.1 a1
           (c2.2.1, c2.2.2.1,
            c2.2.2.2.set 0 (u32 (c2.2.2.2.getD 0 0 + c2.1)))) := rfl
    rw [h, hc1]
    dsimp only
    rw [hrep 0 (by omega), hc2]
  have hY : moffatCombineStep 257 0 0 0 inp
      = (2, 0, (inp.set 0 catF).set 0 (2 ^ 32 - 2)) := by
    rw [hstep0, hg0, hg1]
    have hu : u32 (catF + catF) = 2 ^ 32 - 2 := by decide
    rw [hu]
  have h256 : (256 : ℕ) = 255 + 1 := rfl
  rw [h256, moffatCombine_succ, hY]
  dsimp only
  have hYlen : ((inp.set 0 catF).set 0 (2 ^ 32 - 2)).length = 257 := by
    rw [List.length_set, List.length_set, hinp, List.length_replicate]
  have hYlow : ∀ k, k + 1 < 1 →
      ((inp.set 0 catF).set 0 (2 ^ 32 - 2)).getD k 0 = k + 1 := by
    intro k hk
    omega
  have hYmid : ((inp.set 0 catF).set 0 (2 ^ 32 - 2)).getD (1 - 1) 0
      = 2 ^ 32 - (1 + 1) :=
    getD_set_self (by rw [List.length_set, hinp, List.length_replicate]; norm_num)
  have hYhigh : ∀ k, 1 ≤ k → k < 257 →
      ((inp.set 0 catF).set 0 (2 ^ 32 - 2)).getD k 0 = catF := by
    intro k hk1 hk2
    rw [getD_set_ne (by omega), getD_set_ne (by omega)]
    exact hrep k hk2
  exact catCombine 255 1 ((inp.set 0 catF).set 0 (2 ^ 32 - 2)) rfl (by omega)
    hYlen hYlow hYmid hYhigh

/-- Phase 2 on the caterpillar parent pointers: every position `j ≤ 254`
follows its pointer chain one step, producing depth `255 - j`. -/
theorem catPhase2 : ∀ t arr, t ≤ 255 → arr.length = 257 →
    (∀ k, k < t → arr.getD k 0 = k + 1) →
    (∀ k, t ≤ k → k ≤ 255 → arr.getD k 0 = 255 - k) →
    arr.getD 256 0 = catF →
    (moffatPhase2 arr t).length = 257 ∧
    (∀ k, k ≤ 255 → (moffatPhase2 arr t).getD k 0 = 255 - k) ∧
    (moffatPhase2 arr t).getD 256 0 = catF := by
  intro t
  induction t with
  | zero =>
    intro arr _ hlen hlow hhigh h256
    exact ⟨hlen, fun k hk => hhigh k (by omega) hk, h256⟩
  | succ j ih =>
    intro arr ht hlen hlow hhigh h256
    have hunf : moffatPhase2 arr (j + 1)
        = moffatPhase2 (arr.set j (u32 (arr.getD (arr.getD j 0) 0 + 1))) j := rfl
    rw [hunf]
    have hj : arr.getD j 0 = j + 1 := hlow j (by omega)
    rw [hj]
    have hj1 : arr.getD (j + 1) 0 = 255 - (j + 1) :=
      hhigh (j + 1) (by omega) (by omega)
    rw [hj1]
    have hu : u32 (255 - (j + 1) + 1) = 255 - j := by
      have he : 255 - (j + 1) + 1 = 255 - j := by omega
      rw [he]
      unfold u32
      exact Nat.mod_eq_of_lt
        (lt_of_le_of_lt (Nat.sub_le _ _) (by unfold U32; norm_num))
    rw [hu]
    exact ih (arr.set j (255 - j)) (by omega) (by rw [List.length_set]; exact hlen)
      (fun k hk => by
        rw [getD_set_ne (by omega)]
        exact hlow k (by omega))
      (fun k hk1 hk2 => by
        rcases Nat.eq_or_lt_of_le hk1 with he | hlt
        · rw [← he, getD_set_self (by rw [hlen]; omega)]
        · rw [getD_set_ne (by omega)]
          exact hhigh k (by omega) hk2)
      (by rw [getD_set_ne (by omega)]; exact h256)

/-- The final spread round on the caterpillar: entering with the wrapped
`unsigned char` depth `u8 256 = 0`, an exhausted `root2` and `next = 1`,
the loop writes 0 into positions 1 and 0 and stops. -/
theorem catSpreadEnd (f : ℕ) (arr : List ℕ) (hlen : arr.length = 257)
    (h2 : arr.getD 2 0 = 255) :
    (moffatSpread (f + 1) 2 0 (u8 256) 0 1 arr).getD 0 0 = 0 ∧
    (moffatSpread (f + 1) 2 0 (u8 256) 0 1 arr).getD 2 0 = 255 := by
  have hu : u8 256 = 0 := rfl
  have h0 : moffatSpread (f + 1) 2 0 (u8 256) 0 1 arr
      = moffatSpread f 0 0 (u8 (u8 256 + 1)) 0 (usub32 (usub32 1 1) 1)
          ((arr.set 1 (u8 256)).set (usub32 1 1) (u8 256)) := rfl
  rw [h0, moffatSpread_avail_zero]
  have hs1 : usub32 1 1 = 0 := rfl
  rw [hs1, hu]
  constructor
  · exact getD_set_self (by rw [List.length_set, hlen]; norm_num)
  · rw [getD_set_ne (by omega), getD_set_ne (by omega)]
    exact h2

/-- Spread rounds `r = 1 .. 255` on the caterpillar: each round consumes
the single internal node of depth `r` and writes `r` into position
`257 - r`; round 256 then wraps the `unsigned char` depth to 0 and
overwrites positions 1 and 0 with 0. -/
theorem catSpread : ∀ m r arr, r + m = 256 → 1 ≤ r → r ≤ 255 →
    arr.length = 257 →
    (∀ k, k ≤ 257 - r → k ≤ 255 → arr.getD k 0 = 255 - k) →
    (moffatSpread (m + 3) 2 0 (u8 r) (256 - r) (257 - r) arr).getD 0 0 = 0 ∧
    (moffatSpread (m + 3) 2 0 (u8 r) (256 - r) (257 - r) arr).getD 2 0 = 255 := by
  intro m
  induction m with
  | zero =>
    intro r arr hrm h1 h255 _ _
    omega
  | succ m ih =>
    intro r arr hrm h1 h255 hlen hvals
    have hu8r : u8 r = r := Nat.mod_eq_of_lt (by omega)
    have h0 : moffatSpread (m + 1 + 3) 2 0 (u8 r) (256 - r) (257 - r) arr
        = if (2 : ℕ) = 0 then arr
          else moffatSpread (m + 3) (2 * (moffatConsume arr (u8 r) (256 - r) 0).2)
            0 (u8 (u8 r + 1)) (moffatConsume arr (u8 r) (256 - r) 0).1
            (moffatFill (u8 r) (2 - (moffatConsume arr (u8 r) (256 - r) 0).2)
              (257 - r) arr).1
            (moffatFill (u8 r) (2 - (moffatConsume arr (u8 r) (256 - r) 0).2)
              (257 - r) arr).2 := rfl
    rw [h0, if_neg (by omega), hu8r]
    have hcons : moffatConsume arr r (256 - r) 0 = (255 - r, 1) := by
      obtain ⟨w, hw⟩ : ∃ w, 256 - r = w + 1 := ⟨255 - r, by omega⟩
      have hw' : w = 255 - r := by omega
      subst hw'
      rw [hw]
      have h1u : moffatConsume arr r (255 - r + 1) 0
          = if arr.getD (255 - r) 0 = r then moffatConsume arr r (255 - r) 1
            else (255 - r + 1, 0) := rfl
      rw [h1u, hvals (255 - r) (by omega) (by omega), if_pos (by omega)]
      rcases Nat.eq_or_lt_of_le h255 with he | hlt
      · subst he
        rfl
      · obtain ⟨v, hv⟩ : ∃ v, 255 - r = v + 1 := ⟨254 - r, by omega⟩
        have hv' : v = 254 - r := by omega
        subst hv'
        rw [hv]
        have h2u : moffatConsume arr r (254 - r + 1) 1
            = if arr.getD (254 - r) 0 = r then moffatConsume arr r (254 - r) 2
              else (254 - r + 1, 1) := rfl
        rw [h2u, hvals (254 - r) (by omega) (by omega), if_neg (by omega)]
    rw [hcons]
    dsimp only
    have hf : moffatFill r (2 - 1) (257 - r) arr
        = (usub32 (257 - r) 1, arr.set (257 - r) r) := rfl
    rw [hf]
    dsimp only
    have hsub : usub32 (257 - r) 1 = 256 - r := by
      rw [usub32_small (by omega)
        (lt_of_le_of_lt (Nat.sub_le _ _) (by unfold U32; norm_num))]
      omega
    rw [hsub]
    rcases Nat.eq_or_lt_of_le h255 with he | hlt
    · have hm0 : m = 0 := by omega
      subst hm0
      subst he
      exact catSpreadEnd 2 (arr.set (257 - 255) 255)
        (by rw [List.length_set]; exact hlen)
        (getD_set_self (by rw [hlen]; norm_num))
    · have hres := ih (r + 1) (arr.set (257 - r) r) (by omega) (by omega)
        (by omega) (by rw [List.length_set]; exact hlen)
        (fun k hk1 hk2 => by
          rw [getD_set_ne (by omega)]
          exact hvals k (by omega) hk2)
      have he1 : 256 - (r + 1) = 255 - r := by omega
      have he2 : 257 - (r + 1) = 256 - r := by omega
      rw [he1, he2] at hres
      exact hres

/-- C3 (counterexample).  On the ascending, strictly positive histogram of
257 equal weights `2^32 - 1` (all entries equal, hence sorted ascending as
the contract requires), `moffatSortedInPlace` does NOT leave the buffer in
descending order and does NOT return the maximum length: the final buffer
starts `0, 0, 255, ...` (position 0 holds 0, position 2 holds 255, so the
order is not non-increasing), and the function returns 0.  The cause is
the `unsigned char` depth counter wrapping to 0 after 256 rounds of the
spread phase. -/
theorem C3_cex_uchar_depth_wrap :
    (moffatSortedInPlace 257 (List.replicate 257 catF)).2.getD 0 0 = 0 ∧
    (moffatSortedInPlace 257 (List.replicate 257 catF)).2.getD 2 0 = 255 ∧
    (moffatSortedInPlace 257 (List.replicate 257 catF)).1 = 0 := by
  obtain ⟨hA1len, hA1low, hA1mid, hA1hi⟩ := catCombineAll
  set A1 := moffatCombine 257 0 0 0 256 (List.replicate 257 catF) with hA1
  have hp2 := catPhase2 255 (A1.set 255 0) (by omega)
    (by rw [List.length_set]; exact hA1len)
    (fun k hk => by
      rw [getD_set_ne (by omega)]
      exact hA1low k hk)
    (fun k hk1 hk2 => by
      have hke : k = 255 := by omega
      subst hke
      rw [getD_set_self (by rw [hA1len]; norm_num)]
      )
    (by rw [getD_set_ne (by omega)]; exact hA1hi)
  obtain ⟨hA2len, hA2val, hA2hi⟩ := hp2
  set A2 := moffatPhase2 (A1.set 255 0) 255 with hA2
  have hcons0 : moffatConsume A2 0 256 0 = (255, 1) := by
    have h1u : moffatConsume A2 0 256 0
        = if A2.getD 255 0 = 0 then moffatConsume A2 0 255 1 else (256, 0) := rfl
    rw [h1u, hA2val 255 (by norm_num), if_pos (by norm_num)]
    have h2u : moffatConsume A2 0 255 1
        = if A2.getD 254 0 = 0 then moffatConsume A2 0 254 2 else (255, 1) := rfl
    rw [h2u, hA2val 254 (by norm_num), if_neg (by norm_num)]
  have hrd0 : moffatSpread 259 1 0 0 256 256 A2
      = moffatSpread (255 + 3) 2 0 (u8 1) (256 - 1) (257 - 1) A2 := by
    have hh : moffatSpread 259 1 0 0 256 256 A2
        = if (1 : ℕ) = 0 then A2
          else moffatSpread 258 (2 * (moffatConsume A2 0 256 0).2) 0 (u8 1)
            (moffatConsume A2 0 256 0).1
            (moffatFill 0 (1 - (moffatConsume A2 0 256 0).2) 256 A2).1
            (moffatFill 0 (1 - (moffatConsume A2 0 256 0).2) 256 A2).2 := rfl
    rw [hh, if_neg (by omega), hcons0]
    have hfill0 : moffatFill 0 (1 - ((255 : ℕ), (1 : ℕ)).2) 256 A2 = (256, A2) := rfl
    rw [hfill0]
    dsimp only
  have hsp := catSpread 255 1 A2 rfl (by norm_num) (by norm_num) hA2len
    (fun k _ hk2 => hA2val k hk2)
  unfold moffatSortedInPlace
  rw [if_neg (by norm_num), if_neg (by norm_num)]
  dsimp only
  have e1 : (257 : ℕ) - 1 = 256 := rfl
  have e2 : (257 : ℕ) - 2 = 255 := rfl
  have e3 : (257 : ℕ) + 2 = 259 := rfl
  rw [e1, e2, e3, ← hA1, ← hA2, hrd0]
  exact ⟨hsp.1, hsp.2, by rw [hsp.1]; rfl⟩

/-- C3 (amended).  The moffatSortedInPlace contract restricted to
`numCodes ≤ 256` (so that the `unsigned char` depth counter cannot wrap;
`C3_cex_uchar_depth_wrap` shows it fails at 257): for `M = 0` the
function returns 0 and leaves the buffer untouched, for `M = 1` it
assigns `A[0] = 1` and returns 1, and for `2 ≤ M ≤ 256` the final buffer
is in descending (non-increasing) order, the returned value is `A[0]`,
every entry is at most `A[0]` (so `A[0]` is the maximum length), and the
returned value is nonzero.  No sortedness or positivity of the input is
needed. -/
theorem C3_moffat_sorted_in_place_contract (M : ℕ) (arr : List ℕ)
    (hlen : arr.length = M) (hM : M ≤ 256) :
    (M = 0 → moffatSortedInPlace M arr = (0, arr)) ∧
    (M = 1 → moffatSortedInPlace M arr = (1, arr.set 0 1)) ∧
    (2 ≤ M →
      (∀ p q, p ≤ q → q < M →
        (moffatSortedInPlace M arr).2.getD q 0
          ≤ (moffatSortedInPlace M arr).2.getD p 0) ∧
      (moffatSortedInPlace M arr).1 = (moffatSortedInPlace M arr).2.getD 0 0 ∧
      (∀ p, p < M →
        (moffatSortedInPlace M arr).2.getD p 0 ≤ (moffatSortedInPlace M arr).1) ∧
      1 ≤ (moffatSortedInPlace M arr).1) := by
  refine ⟨?_, ?_, ?_⟩
  · intro h0
    subst h0
    rfl
  · intro h1
    subst h1
    rfl
  · intro h2
    obtain ⟨⟨o1, o2, o3, o4, o5⟩, h1', h2', h3'⟩ :=
      moffatSortedInPlace_spec M arr h2 hM hlen
    refine ⟨o2, h1', ?_, h2'⟩
    intro p hp
    rw [h1']
    exact (o3 p hp).2

/-- Witness: the amended C3 theorem applied to the histogram `[1, 2, 5]`. -/
theorem C3_moffat_sorted_in_place_contract_witness :
    (moffatSortedInPlace 3 [1, 2, 5]).2.getD 2 0
      ≤ (moffatSortedInPlace 3 [1, 2, 5]).2.getD 0 0 ∧
    (moffatSortedInPlace 3 [1, 2, 5]).1
      = (moffatSortedInPlace 3 [1, 2, 5]).2.getD 0 0 ∧
    1 ≤ (moffatSortedInPlace 3 [1, 2, 5]).1 := by
  have h := (C3_moffat_sorted_in_place_contract 3 [1, 2, 5] rfl
    (by norm_num)).2.2 (by norm_num)
  exact ⟨h.1 0 2 (by norm_num) (by norm_num), h.2.1, h.2.2.2⟩

/-! ## Histogram algebra shared by the two reducers

Weighted sums `∑ l < n, bits[l] · w l` over a length histogram, and how
they change under a single `List.set`. -/

/-- A list sum as a sum of `getD` values over the index range. -/
theorem listSum_getD (bits : List ℕ) :
    bits.sum = ∑ l ∈ Finset.range bits.length, bits.getD l 0 := by
  induction bits with
  | nil => rfl
  | cons a t ih =>
    rw [List.sum_cons, List.length_cons, Finset.sum_range_succ']
    simp only [List.getD_cons_succ, List.getD_cons_zero]
    rw [← ih]
    omega

/-- Every entry of a `List ℕ` is at most the list sum. -/
theorem getD_le_sum (bits : List ℕ) (l : ℕ) : bits.getD l 0 ≤ bits.sum := by
  induction bits generalizing l with
  | nil =>
    simp [List.getD]
  | cons a t ih =>
    cases l with
    | zero =>
      rw [List.getD_cons_zero, List.sum_cons]
      omega
    | succ m =>
      rw [List.getD_cons_succ, List.sum_cons]
      have := ih m
      omega

/-- Updating one position of a histogram changes a weighted index sum by
swapping the old contribution for the new one (stated additively to stay
in `ℕ`). -/
theorem sum_getD_set {bits : List ℕ} {p v n : ℕ} (w : ℕ → ℕ) (hp : p < n)
    (hlen : p < bits.length) :
    (∑ l ∈ Finset.range n, (bits.set p v).getD l 0 * w l) + bits.getD p 0 * w p
      = (∑ l ∈ Finset.range n, bits.getD l 0 * w l) + v * w p := by
  rw [← Finset.sum_erase_add _ _ (Finset.mem_range.mpr hp),
      ← Finset.sum_erase_add (Finset.range n)
        (fun l => bits.getD l 0 * w l) (Finset.mem_range.mpr hp),
      getD_set_self hlen]
  have he : ∀ l ∈ (Finset.range n).erase p,
      (bits.set p v).getD l 0 * w l = bits.getD l 0 * w l := by
    intro l hl
    rw [getD_set_ne (Ne.symm (Finset.ne_of_mem_erase hl))]
  rw [Finset.sum_congr rfl he]
  ring

/-- List sum after a `List.set`, additively. -/
theorem listSum_set {bits : List ℕ} {p v : ℕ} (hlen : p < bits.length) :
    (bits.set p v).sum + bits.getD p 0 = bits.sum + v := by
  have h := @sum_getD_set bits p v bits.length (fun _ => 1) hlen hlen
  rw [listSum_getD bits, listSum_getD (bits.set p v), List.length_set]
  simpa using h

/-- The part of the scaled Kraft sum contributed by lengths strictly
below `L`. -/
def lowS (L : ℕ) (bits : List ℕ) : ℕ :=
  ∑ l ∈ Finset.range L, bits.getD l 0 * 2 ^ (L - l)

/-- `kraftS` after updating one histogram entry, additively. -/
theorem kraftS_set {L p v : ℕ} {bits : List ℕ} (hp : p ≤ L)
    (hlen : p < bits.length) :
    kraftS L (bits.set p v) + bits.getD p 0 * 2 ^ (L - p)
      = kraftS L bits + v * 2 ^ (L - p) := by
  unfold kraftS
  exact sum_getD_set (fun l => 2 ^ (L - l)) (by omega) hlen

/-- When every entry above `K` is zero, the Kraft sum at scale `L` is the
Kraft sum at scale `K` rescaled by `2^(L-K)`. -/
theorem kraftS_scale {K L : ℕ} {bits : List ℕ} (hKL : K ≤ L)
    (hhigh : ∀ l, K < l → l ≤ L → bits.getD l 0 = 0) :
    kraftS L bits = 2 ^ (L - K) * kraftS K bits := by
  unfold kraftS
  rw [Finset.mul_sum, Finset.range_eq_Ico,
      ← Finset.sum_Ico_consecutive (fun l => bits.getD l 0 * 2 ^ (L - l))
        (Nat.zero_le (K + 1)) (by omega : K + 1 ≤ L + 1)]
  have hz : ∑ l ∈ Finset.Ico (K + 1) (L + 1), bits.getD l 0 * 2 ^ (L - l) = 0 := by
    apply Finset.sum_eq_zero
    intro l hl
    rw [Finset.mem_Ico] at hl
    rw [hhigh l (by omega) (by omega)]
    ring
  rw [hz, add_zero, ← Finset.range_eq_Ico]
  apply Finset.sum_congr rfl
  intro l hl
  rw [Finset.mem_range] at hl
  have he : L - l = (L - K) + (K - l) := by omega
  rw [he, pow_add]
  ring

/-- Splitting off the scale-level entry of the Kraft sum. -/
theorem kraftS_split (L : ℕ) (bits : List ℕ) :
    kraftS L bits = lowS L bits + bits.getD L 0 := by
  unfold kraftS lowS
  rw [Finset.sum_range_succ, Nat.sub_self]
  simp

/-- The below-scale part of the Kraft sum is even. -/
theorem lowS_even (L : ℕ) (bits : List ℕ) : 2 ∣ lowS L bits := by
  unfold lowS
  apply Finset.dvd_sum
  intro l hl
  rw [Finset.mem_range] at hl
  apply Dvd.dvd.mul_left
  have he : L - l = (L - l - 1) + 1 := by omega
  rw [he, pow_succ]
  exact Dvd.intro_left _ rfl

/-- When the Kraft sum at scale `L` is the exact power `2^L` and every
entry above `i ≥ 1` is zero, the entry at `i` is even (the classical
evenness of the count of longest codes). -/
theorem kraftS_top_even {L i : ℕ} {bits : List ℕ} (h1 : 1 ≤ i) (hiL : i ≤ L)
    (hhigh : ∀ l, i < l → l ≤ L → bits.getD l 0 = 0)
    (hk : kraftS L bits = 2 ^ L) : 2 ∣ bits.getD i 0 := by
  have hs := kraftS_scale hiL hhigh
  have hki : kraftS i bits = 2 ^ i := by
    rw [hs] at hk
    have hp : 2 ^ L = 2 ^ (L - i) * 2 ^ i := by
      rw [← pow_add]
      congr 1
      omega
    rw [hp] at hk
    exact Nat.eq_of_mul_eq_mul_left (Nat.pos_pow_of_pos _ (by norm_num)) hk
  have hsplit := kraftS_split i bits
  have hle := lowS_even i bits
  have h2i : 2 ∣ 2 ^ i := by
    have he : i = (i - 1) + 1 := by omega
    rw [he, pow_succ]
    exact Dvd.intro_left _ rfl
  omega

/-- Specification of the backward scans `jpegFindJ` (and `jpegScanMax`,
which is the same function): the result is the largest index in `[1, s]`
holding a nonzero entry, or 0 when there is none. -/
theorem jpegFindJ_spec (bits : List ℕ) : ∀ s,
    (1 ≤ jpegFindJ bits s ∧ jpegFindJ bits s ≤ s ∧
     bits.getD (jpegFindJ bits s) 0 ≠ 0 ∧
     (∀ l, jpegFindJ bits s < l → l ≤ s → bits.getD l 0 = 0)) ∨
    (jpegFindJ bits s = 0 ∧ ∀ l, 1 ≤ l → l ≤ s → bits.getD l 0 = 0) := by
  intro s
  induction s with
  | zero =>
    right
    exact ⟨rfl, fun l h1 h2 => absurd h2 (by omega)⟩
  | succ s ih =>
    by_cases h : bits.getD (s + 1) 0 = 0
    · have hu : jpegFindJ bits (s + 1)
          = if bits.getD (s + 1) 0 = 0 then jpegFindJ bits s else s + 1 := rfl
      rw [hu, if_pos h]
      rcases ih with ⟨h1, h2, h3, h4⟩ | ⟨h0, hall⟩
      · left
        refine ⟨h1, by omega, h3, ?_⟩
        intro l hl1 hl2
        rcases Nat.eq_or_lt_of_le hl2 with he | hlt
        · rw [he]
          exact h
        · exact h4 l hl1 (by omega)
      · right
        refine ⟨h0, ?_⟩
        intro l hl1 hl2
        rcases Nat.eq_or_lt_of_le hl2 with he | hlt
        · rw [he]
          exact h
        · exact hall l hl1 (by omega)
    · have hu : jpegFindJ bits (s + 1)
          = if bits.getD (s + 1) 0 = 0 then jpegFindJ bits s else s + 1 := rfl
      rw [hu, if_neg h]
      left
      exact ⟨by omega, le_refl _, h, fun l hl1 hl2 => absurd hl1 (by omega)⟩

/-- `jpegScanMax` is the same scan as `jpegFindJ`. -/
theorem jpegScanMax_eq (bits : List ℕ) : ∀ s, jpegScanMax bits s = jpegFindJ bits s := by
  intro s
  induction s with
  | zero => rfl
  | succ s ih =>
    have h1 : jpegScanMax bits (s + 1)
        = if bits.getD (s + 1) 0 = 0 then jpegScanMax bits s else s + 1 := rfl
    have h2 : jpegFindJ bits (s + 1)
        = if bits.getD (s + 1) 0 = 0 then jpegFindJ bits s else s + 1 := rfl
    rw [h1, h2, ih]

/-- Specification of `minizFindI`: the topmost nonzero entry in `[1, s]`,
or `none` when all those entries are zero. -/
theorem minizFindI_spec (bits : List ℕ) : ∀ s,
    (∃ i, minizFindI bits s = some i ∧ 1 ≤ i ∧ i ≤ s ∧ 0 < bits.getD i 0 ∧
      (∀ l, i < l → l ≤ s → bits.getD l 0 = 0)) ∨
    (minizFindI bits s = none ∧ ∀ l, 1 ≤ l → l ≤ s → bits.getD l 0 = 0) := by
  intro s
  induction s with
  | zero =>
    right
    exact ⟨rfl, fun l h1 h2 => absurd h2 (by omega)⟩
  | succ s ih =>
    by_cases h : 0 < bits.getD (s + 1) 0
    · have hu : minizFindI bits (s + 1) = some (s + 1) := by
        have h0 : minizFindI bits (s + 1)
            = if 0 < bits.getD (s + 1) 0 then some (s + 1) else minizFindI bits s := rfl
        rw [h0, if_pos h]
      left
      exact ⟨s + 1, hu, by omega, le_refl _, h, fun l hl1 hl2 => absurd hl1 (by omega)⟩
    · have hu : minizFindI bits (s + 1) = minizFindI bits s := by
        have h0 : minizFindI bits (s + 1)
            = if 0 < bits.getD (s + 1) 0 then some (s + 1) else minizFindI bits s := rfl
        rw [h0, if_neg h]
      rw [hu]
      rcases ih with ⟨i, hi, h1, h2, h3, h4⟩ | ⟨h0, hall⟩
      · left
        refine ⟨i, hi, h1, by omega, h3, ?_⟩
        intro l hl1 hl2
        rcases Nat.eq_or_lt_of_le hl2 with he | hlt
        · rw [he]
          omega
        · exact h4 l hl1 (by omega)
      · right
        refine ⟨h0, ?_⟩
        intro l hl1 hl2
        rcases Nat.eq_or_lt_of_le hl2 with he | hlt
        · rw [he]
          omega
        · exact hall l hl1 (by omega)

/-- Termination potential of the JPEG demotion loop: total excess length
above `newL` (truncated at 0), summed over the histogram. -/
def jpegPhi (newL : ℕ) (bits : List ℕ) : ℕ :=
  ∑ l ∈ Finset.range 64, bits.getD l 0 * (l - newL)

/-- Incrementing one histogram entry adds its weight. -/
theorem sum_getD_set_add {bits : List ℕ} {p c n : ℕ} (w : ℕ → ℕ) (hp : p < n)
    (hlen : p < bits.length) :
    (∑ l ∈ Finset.range n, (bits.set p (bits.getD p 0 + c)).getD l 0 * w l)
      = (∑ l ∈ Finset.range n, bits.getD l 0 * w l) + c * w p := by
  have h := @sum_getD_set bits p (bits.getD p 0 + c) n w hp hlen
  rw [add_mul] at h
  omega

/-- Decrementing one histogram entry removes its weight (additively). -/
theorem sum_getD_set_sub {bits : List ℕ} {p c n : ℕ} (w : ℕ → ℕ) (hp : p < n)
    (hlen : p < bits.length) (hc : c ≤ bits.getD p 0) :
    (∑ l ∈ Finset.range n, (bits.set p (bits.getD p 0 - c)).getD l 0 * w l)
      + c * w p
      = ∑ l ∈ Finset.range n, bits.getD l 0 * w l := by
  have h := @sum_getD_set bits p (bits.getD p 0 - c) n w hp hlen
  rw [Nat.sub_mul] at h
  have hcw : c * w p ≤ bits.getD p 0 * w p := Nat.mul_le_mul_right _ hc
  omega

theorem kraftS_set_add {L p c : ℕ} {bits : List ℕ} (hp : p ≤ L)
    (hlen : p < bits.length) :
    kraftS L (bits.set p (bits.getD p 0 + c))
      = kraftS L bits + c * 2 ^ (L - p) := by
  unfold kraftS
  exact sum_getD_set_add (fun l => 2 ^ (L - l)) (by omega) hlen

theorem kraftS_set_sub {L p c : ℕ} {bits : List ℕ} (hp : p ≤ L)
    (hlen : p < bits.length) (hc : c ≤ bits.getD p 0) :
    kraftS L (bits.set p (bits.getD p 0 - c)) + c * 2 ^ (L - p)
      = kraftS L bits := by
  unfold kraftS
  exact sum_getD_set_sub (fun l => 2 ^ (L - l)) (by omega) hlen hc

theorem jpegPhi_set_add {newL p c : ℕ} {bits : List ℕ} (hp : p < 64)
    (hlen : p < bits.length) :
    jpegPhi newL (bits.set p (bits.getD p 0 + c))
      = jpegPhi newL bits + c * (p - newL) := by
  unfold jpegPhi
  exact sum_getD_set_add (fun l => l - newL) hp hlen

theorem jpegPhi_set_sub {newL p c : ℕ} {bits : List ℕ} (hp : p < 64)
    (hlen : p < bits.length) (hc : c ≤ bits.getD p 0) :
    jpegPhi newL (bits.set p (bits.getD p 0 - c)) + c * (p - newL)
      = jpegPhi newL bits := by
  unfold jpegPhi
  exact sum_getD_set_sub (fun l => l - newL) hp hlen hc

theorem listSum_set_add {bits : List ℕ} {p c : ℕ} (hlen : p < bits.length) :
    (bits.set p (bits.getD p 0 + c)).sum = bits.sum + c := by
  have h := @sum_getD_set_add bits p c bits.length (fun _ => 1) hlen hlen
  rw [listSum_getD bits, listSum_getD (bits.set p (bits.getD p 0 + c)),
      List.length_set]
  simpa using h

theorem listSum_set_sub {bits : List ℕ} {p c : ℕ} (hlen : p < bits.length)
    (hc : c ≤ bits.getD p 0) :
    (bits.set p (bits.getD p 0 - c)).sum + c = bits.sum := by
  have h := @sum_getD_set_sub bits p c bits.length (fun _ => 1) hlen hlen hc
  rw [listSum_getD bits, listSum_getD (bits.set p (bits.getD p 0 - c)),
      List.length_set]
  simpa using h

/-- Effect of one JPEG demotion step under the conditions the loop
establishes (`1 ≤ j`, `j + 1 < i ≤ 63`, at least two codes at length `i`,
at least one at length `j`, counts below `2^31`): histogram length,
symbol count and the exact scale-63 Kraft sum are preserved, the
termination potential strictly decreases, and entries above `i` as well
as entry 0 are untouched. -/
theorem jpegStep_spec {M newL i j : ℕ} {bits : List ℕ}
    (hlen : bits.length = 64) (hsum : bits.sum = M) (hM : M < 2 ^ 31)
    (hi : i ≤ 63) (h1j : 1 ≤ j) (hji : j + 1 < i) (hnewL : newL < i)
    (hbi : 2 ≤ bits.getD i 0) (hbj : 1 ≤ bits.getD j 0) :
    (jpegStep bits i j).length = 64 ∧
    (jpegStep bits i j).sum = M ∧
    kraftS 63 (jpegStep bits i j) = kraftS 63 bits ∧
    jpegPhi newL (jpegStep bits i j) + 1 ≤ jpegPhi newL bits ∧
    (∀ l, i < l → (jpegStep bits i j).getD l 0 = bits.getD l 0) ∧
    (jpegStep bits i j).getD 0 0 = bits.getD 0 0 := by
  have hU : U32 = 4294967296 := by unfold U32; norm_num
  have h31 : (2:ℕ) ^ 31 = 2147483648 := by norm_num
  rw [h31] at hM
  have hvi : bits.getD i 0 ≤ M := by
    rw [← hsum]
    exact getD_le_sum bits i
  have hvj : bits.getD j 0 ≤ M := by
    rw [← hsum]
    exact getD_le_sum bits j
  have hilen : i < bits.length := by omega
  have h1 : usub32 (bits.getD i 0) 2 = bits.getD i 0 - 2 :=
    usub32_small (by omega) (by omega)
  set B1 := bits.set i (bits.getD i 0 - 2) with hB1
  have hb1len : B1.length = 64 := by
    rw [hB1, List.length_set]
    exact hlen
  have hb1sum : B1.sum + 2 = M := by
    rw [hB1, listSum_set_sub hilen hbi]
    exact hsum
  have hb1v : B1.getD (i - 1) 0 ≤ M := le_trans (getD_le_sum _ _) (by omega)
  have h2 : u32 (B1.getD (i - 1) 0 + 1) = B1.getD (i - 1) 0 + 1 := by
    unfold u32
    exact Nat.mod_eq_of_lt (by omega)
  set B2 := B1.set (i - 1) (B1.getD (i - 1) 0 + 1) with hB2
  have hb2len : B2.length = 64 := by
    rw [hB2, List.length_set]
    exact hb1len
  have hb2sum : B2.sum = M - 1 := by
    rw [hB2, @listSum_set_add B1 (i - 1) 1 (by omega)]
    omega
  have hb2v : B2.getD (j + 1) 0 ≤ M := le_trans (getD_le_sum _ _) (by omega)
  have h3 : u32 (B2.getD (j + 1) 0 + 2) = B2.getD (j + 1) 0 + 2 := by
    unfold u32
    exact Nat.mod_eq_of_lt (by omega)
  set B3 := B2.set (j + 1) (B2.getD (j + 1) 0 + 2) with hB3
  have hb3len : B3.length = 64 := by
    rw [hB3, List.length_set]
    exact hb2len
  have hb3sum : B3.sum = M + 1 := by
    rw [hB3, @listSum_set_add B2 (j + 1) 2 (by omega)]
    omega
  have hb3j : B3.getD j 0 = bits.getD j 0 := by
    rw [hB3, getD_set_ne (by omega), hB2, getD_set_ne (by omega), hB1,
        getD_set_ne (by omega)]
  have h4 : usub32 (B3.getD j 0) 1 = B3.getD j 0 - 1 := by
    rw [hb3j]
    exact usub32_small (by omega) (by omega)
  set B4 := B3.set j (B3.getD j 0 - 1) with hB4
  have hstep : jpegStep bits i j = B4 := by
    unfold jpegStep
    dsimp only
    rw [h1, ← hB1, h2, ← hB2, h3, ← hB3, h4, ← hB4]
  have hb4len : B4.length = 64 := by
    rw [hB4, List.length_set]
    exact hb3len
  have hb4sum : B4.sum = M := by
    have hj1 : 1 ≤ B3.getD j 0 := by
      rw [hb3j]
      exact hbj
    have h : B4.sum + 1 = B3.sum := by
      rw [hB4]
      exact @listSum_set_sub B3 j 1 (by omega) hj1
    omega
  have hk1 : kraftS 63 B1 + 2 * 2 ^ (63 - i) = kraftS 63 bits := by
    rw [hB1]
    exact @kraftS_set_sub 63 i 2 bits (by omega) hilen hbi
  have hk2 : kraftS 63 B2 = kraftS 63 B1 + 1 * 2 ^ (63 - (i - 1)) := by
    rw [hB2]
    exact @kraftS_set_add 63 (i - 1) 1 B1 (by omega) (by omega)
  have hk3 : kraftS 63 B3 = kraftS 63 B2 + 2 * 2 ^ (63 - (j + 1)) := by
    rw [hB3]
    exact @kraftS_set_add 63 (j + 1) 2 B2 (by omega) (by omega)
  have hk4 : kraftS 63 B4 + 1 * 2 ^ (63 - j) = kraftS 63 B3 := by
    rw [hB4]
    exact @kraftS_set_sub 63 j 1 B3 (by omega) (by omega)
      (by rw [hb3j]; exact hbj)
  have e1 : (2:ℕ) ^ (63 - (i - 1)) = 2 * 2 ^ (63 - i) := by
    have h : 63 - (i - 1) = (63 - i) + 1 := by omega
    rw [h, pow_succ']
  have e2 : (2:ℕ) ^ (63 - j) = 2 * 2 ^ (63 - (j + 1)) := by
    have h : 63 - j = (63 - (j + 1)) + 1 := by omega
    rw [h, pow_succ']
  have hkraft : kraftS 63 B4 = kraftS 63 bits := by
    rw [e1] at hk2
    rw [e2] at hk4
    set w1 := (2:ℕ) ^ (63 - i) with hw1
    set w2 := (2:ℕ) ^ (63 - (j + 1)) with hw2
    omega
  have hq1 : jpegPhi newL B1 + 2 * (i - newL) = jpegPhi newL bits := by
    rw [hB1]
    exact @jpegPhi_set_sub newL i 2 bits (by omega) hilen hbi
  have hq2 : jpegPhi newL B2 = jpegPhi newL B1 + 1 * ((i - 1) - newL) := by
    rw [hB2]
    exact @jpegPhi_set_add newL (i - 1) 1 B1 (by omega) (by omega)
  have hq3 : jpegPhi newL B3 = jpegPhi newL B2 + 2 * ((j + 1) - newL) := by
    rw [hB3]
    exact @jpegPhi_set_add newL (j + 1) 2 B2 (by omega) (by omega)
  have hq4 : jpegPhi newL B4 + 1 * (j - newL) = jpegPhi newL B3 := by
    rw [hB4]
    exact @jpegPhi_set_sub newL j 1 B3 (by omega) (by omega)
      (by rw [hb3j]; exact hbj)
  have hphi : jpegPhi newL B4 + 1 ≤ jpegPhi newL bits := by
    omega
  have hframe : ∀ l, i < l → B4.getD l 0 = bits.getD l 0 := by
    intro l hl
    rw [hB4, getD_set_ne (by omega), hB3, getD_set_ne (by omega), hB2,
        getD_set_ne (by omega), hB1, getD_set_ne (by omega)]
  have hzero : B4.getD 0 0 = bits.getD 0 0 := by
    rw [hB4, getD_set_ne (by omega), hB3, getD_set_ne (by omega), hB2,
        getD_set_ne (by omega), hB1, getD_set_ne (by omega)]
  rw [hstep]
  exact ⟨hb4len, hb4sum, hkraft, hphi, hframe, hzero⟩

/-- Exactness of the Kraft sum transfers down to the top used level. -/
theorem kraftS_descale {K L : ℕ} {bits : List ℕ} (hKL : K ≤ L)
    (hhigh : ∀ l, K < l → l ≤ L → bits.getD l 0 = 0)
    (hk : kraftS L bits = 2 ^ L) : kraftS K bits = 2 ^ K := by
  have hs := kraftS_scale hKL hhigh
  rw [hs] at hk
  have hp : (2:ℕ) ^ (L - K) * 2 ^ K = 2 ^ L := by
    rw [← pow_add, Nat.sub_add_cancel hKL]
  rw [← hp] at hk
  exact Nat.eq_of_mul_eq_mul_left (Nat.pos_pow_of_pos _ (by norm_num)) hk

/-- Under the exact Kraft invariant and the feasibility bound
`M ≤ 2^newL`, the JPEG loop's backward search cannot come up empty: a
state with codes at level `i > newL` but no code in `[1, i-2]` would
force more than `2^(i-1) ≥ 2^newL` symbols. -/
theorem jpeg_findJ_pos {M newL i : ℕ} {bits : List ℕ}
    (h2 : 2 ≤ newL) (hMf : M ≤ 2 ^ newL)
    (hlen : bits.length = 64) (h0 : bits.getD 0 0 = 0) (hi : i ≤ 63)
    (hhigh : ∀ l, i < l → l ≤ 63 → bits.getD l 0 = 0)
    (hk : kraftS 63 bits = 2 ^ 63) (hsum : bits.sum = M)
    (hnewL : newL < i) (hbi : bits.getD i 0 ≠ 0)
    (hzero : ∀ l, 1 ≤ l → l ≤ i - 2 → bits.getD l 0 = 0) : False := by
  have hki : kraftS i bits = 2 ^ i :=
    kraftS_descale (by omega) hhigh hk
  have hlow : lowS i bits = bits.getD (i - 1) 0 * 2 ^ (i - (i - 1)) := by
    unfold lowS
    apply Finset.sum_eq_single_of_mem (i - 1) (Finset.mem_range.mpr (by omega))
    intro l hl hne
    rw [Finset.mem_range] at hl
    rcases Nat.eq_zero_or_pos l with h0l | hpos
    · rw [h0l, h0]
      ring
    · rw [hzero l (by omega) (by omega)]
      ring
  have he1 : i - (i - 1) = 1 := by omega
  rw [he1, pow_one] at hlow
  have hsplit := kraftS_split i bits
  have hsum2 : M = bits.getD (i - 1) 0 + bits.getD i 0 := by
    rw [← hsum, listSum_getD bits, hlen]
    have hsub : ({i - 1, i} : Finset ℕ) ⊆ Finset.range 64 :=
      Finset.insert_subset_iff.mpr
        ⟨Finset.mem_range.mpr (by omega),
         Finset.singleton_subset_iff.mpr (Finset.mem_range.mpr (by omega))⟩
    have hz : ∀ l ∈ Finset.range 64, l ∉ ({i - 1, i} : Finset ℕ) →
        bits.getD l 0 = 0 := by
      intro l hl hnot
      rw [Finset.mem_range] at hl
      simp only [Finset.mem_insert, Finset.mem_singleton] at hnot
      push_neg at hnot
      rcases Nat.eq_zero_or_pos l with h0l | hpos
      · rw [h0l]
        exact h0
      · rcases Nat.lt_or_ge l i with hlti | hgei
        · exact hzero l (by omega) (by omega)
        · exact hhigh l (by omega) (by omega)
    rw [← Finset.sum_subset hsub hz, Finset.sum_pair (by omega : i - 1 ≠ i)]
  have hpow1 : (2:ℕ) ^ i = 2 * 2 ^ (i - 1) := by
    have hp := pow_succ' (2:ℕ) (i - 1)
    rw [show i - 1 + 1 = i from by omega] at hp
    exact hp
  have hpow2 : (2:ℕ) ^ newL ≤ 2 ^ (i - 1) :=
    Nat.pow_le_pow_right (by norm_num) (by omega)
  rw [hsplit, hlow, hpow1] at hki
  omega

/-- Full run of the JPEG demotion loop: under the exact Kraft invariant,
the feasibility bound and sufficient fuel, the loop reaches `i = newL`
and preserves length, entry 0, the zero region, the exact scale-63 Kraft
sum and the symbol count. -/
theorem jpegLoop_spec {M newL : ℕ} (h2 : 2 ≤ newL) (hMf : M ≤ 2 ^ newL)
    (hM : M < 2 ^ 31) :
    ∀ fuel i bits, bits.length = 64 → bits.getD 0 0 = 0 → i ≤ 63 → newL ≤ i →
      (∀ l, i < l → l ≤ 63 → bits.getD l 0 = 0) →
      kraftS 63 bits = 2 ^ 63 → bits.sum = M →
      jpegPhi newL bits + (i - newL) < fuel →
      ∃ b', jpegLoop newL fuel i bits = some (newL, b') ∧
        b'.length = 64 ∧ b'.getD 0 0 = 0 ∧
        (∀ l, newL < l → l ≤ 63 → b'.getD l 0 = 0) ∧
        kraftS 63 b' = 2 ^ 63 ∧ b'.sum = M := by
  intro fuel
  induction fuel with
  | zero =>
    intro i bits _ _ _ _ _ _ _ hf
    omega
  | succ fuel ih =>
    intro i bits hlen h0 hi hnio hhigh hk hsum hf
    have hunf : jpegLoop newL (fuel + 1) i bits
        = if i ≤ newL then some (i, bits)
          else if bits.getD i 0 = 0 then jpegLoop newL fuel (i - 1) bits
          else jpegLoop newL fuel i
            (jpegStep bits i (jpegFindJ bits (i - 2))) := rfl
    rcases Nat.eq_or_lt_of_le hnio with he | hlt
    · rw [hunf, if_pos (by omega)]
      refine ⟨bits, by rw [he], hlen, h0, ?_, hk, hsum⟩
      intro l hl1 hl2
      exact hhigh l (by omega) hl2
    · rw [hunf, if_neg (by omega)]
      by_cases hz : bits.getD i 0 = 0
      · rw [if_pos hz]
        apply ih (i - 1) bits hlen h0 (by omega) (by omega)
          (fun l hl1 hl2 => by
            rcases Nat.lt_or_ge i l with hgt | hle
            · exact hhigh l hgt hl2
            · have hli : l = i := by omega
              rw [hli]
              exact hz) hk hsum (by omega)
      · rw [if_neg hz]
        rcases jpegFindJ_spec bits (i - 2) with ⟨hj1, hj2, hj3, hj4⟩ | ⟨hj0, hall⟩
        · have hbi2 : 2 ≤ bits.getD i 0 := by
            have heven := kraftS_top_even (by omega : 1 ≤ i) hi hhigh hk
            omega
          obtain ⟨hs1, hs2, hs3, hs4, hs5, hs6⟩ :=
            jpegStep_spec hlen hsum hM hi hj1 (by omega) hlt hbi2 (by omega)
          apply ih i (jpegStep bits i (jpegFindJ bits (i - 2))) hs1
            (by rw [hs6]; exact h0) hi (by omega)
            (fun l hl1 hl2 => by
              rw [hs5 l hl1]
              exact hhigh l hl1 hl2)
            (by rw [hs3]; exact hk) hs2 (by omega)
        · exact (jpeg_findJ_pos h2 hMf hlen h0 hi hhigh hk hsum hlt hz hall).elim

/-- The potential is at most 63 times the symbol count. -/
theorem jpegPhi_le (newL : ℕ) (bits : List ℕ) (hlen : bits.length = 64) :
    jpegPhi newL bits ≤ 63 * bits.sum := by
  unfold jpegPhi
  calc ∑ l ∈ Finset.range 64, bits.getD l 0 * (l - newL)
      ≤ ∑ l ∈ Finset.range 64, bits.getD l 0 * 63 := by
        apply Finset.sum_le_sum
        intro l hl
        rw [Finset.mem_range] at hl
        exact Nat.mul_le_mul_left _ (by omega)
    _ = (∑ l ∈ Finset.range 64, bits.getD l 0) * 63 := by
        rw [Finset.sum_mul]
    _ = 63 * bits.sum := by
        rw [listSum_getD bits, hlen, Nat.mul_comm]

/-- Full specification of limitedJpegInPlace on inputs satisfying the
strengthened contract: histogram of 64 counts with `bits[0] = 0`, zeros
above `oldL`, exact Kraft sum `2^oldL`, symbol count `M` with
`0 < M ≤ 2^newL` and `M < 2^31`, and `2 ≤ newL < oldL ≤ 63`.  The
function returns the observed maximum length `m ∈ [1, newL]` of the
reduced histogram, which again has exact Kraft sum (now at scale `newL`)
and the same symbol count. -/
theorem limitedJpegInPlace_spec {newL oldL M : ℕ} {bits : List ℕ}
    (h2 : 2 ≤ newL) (hno : newL < oldL) (ho63 : oldL ≤ 63)
    (hlen : bits.length = 64) (h0 : bits.getD 0 0 = 0)
    (hhigh : ∀ l, oldL < l → l ≤ 63 → bits.getD l 0 = 0)
    (hk : kraftS oldL bits = 2 ^ oldL) (hsum : bits.sum = M)
    (hMf : M ≤ 2 ^ newL) (hM : M < 2 ^ 31) (hM0 : 0 < M) :
    ∃ b', limitedJpegInPlace newL oldL bits = some (jpegScanMax b' newL, b') ∧
      1 ≤ jpegScanMax b' newL ∧ jpegScanMax b' newL ≤ newL ∧
      b'.length = 64 ∧ b'.getD 0 0 = 0 ∧
      b'.getD (jpegScanMax b' newL) 0 ≠ 0 ∧
      (∀ l, jpegScanMax b' newL < l → l ≤ 63 → b'.getD l 0 = 0) ∧
      kraftS newL b' = 2 ^ newL ∧ b'.sum = M := by
  have hk63 : kraftS 63 bits = 2 ^ 63 := by
    rw [kraftS_scale ho63 hhigh, hk, ← pow_add, Nat.sub_add_cancel ho63]
  have hfuel : jpegPhi newL bits + (oldL - newL) < jpegFuel bits := by
    have hphile := jpegPhi_le newL bits hlen
    unfold jpegFuel
    omega
  obtain ⟨b', hloop, hb1, hb2, hb3, hb4, hb5⟩ :=
    jpegLoop_spec h2 hMf hM (jpegFuel bits) oldL bits hlen h0 ho63 (by omega)
      hhigh hk63 hsum hfuel
  have hkn : kraftS newL b' = 2 ^ newL :=
    kraftS_descale (by omega) hb3 hb4
  have hunf : limitedJpegInPlace newL oldL bits
      = (jpegLoop newL (jpegFuel bits) oldL bits).map
          fun p => (jpegScanMax p.2 p.1, p.2) := by
    unfold limitedJpegInPlace
    rw [if_neg (by omega), if_neg (by omega), if_neg (by omega)]
  refine ⟨b', ?_, ?_, ?_, hb1, hb2, ?_, ?_, hkn, hb5⟩
  · rw [hunf, hloop]
    rfl
  · -- scan finds a nonzero entry
    rw [jpegScanMax_eq]
    rcases jpegFindJ_spec b' newL with ⟨hf1, _, _, _⟩ | ⟨hf0, hall⟩
    · exact hf1
    · exfalso
      have hz : ∀ l ∈ Finset.range 64, b'.getD l 0 = 0 := by
        intro l hl
        rw [Finset.mem_range] at hl
        rcases Nat.eq_zero_or_pos l with h0l | hpos
        · rw [h0l]
          exact hb2
        · rcases le_or_lt l newL with hle | hgt
          · exact hall l (by omega) hle
          · exact hb3 l hgt (by omega)
      have : b'.sum = 0 := by
        rw [listSum_getD b', hb1]
        exact Finset.sum_eq_zero hz
      omega
  · rw [jpegScanMax_eq]
    rcases jpegFindJ_spec b' newL with ⟨_, hf2, _, _⟩ | ⟨hf0, _⟩
    · exact hf2
    · rw [hf0]
      omega
  · rw [jpegScanMax_eq]
    rcases jpegFindJ_spec b' newL with ⟨_, _, hf3, _⟩ | ⟨hf0, hall⟩
    · exact hf3
    · exfalso
      have hz : ∀ l ∈ Finset.range 64, b'.getD l 0 = 0 := by
        intro l hl
        rw [Finset.mem_range] at hl
        rcases Nat.eq_zero_or_pos l with h0l | hpos
        · rw [h0l]
          exact hb2
        · rcases le_or_lt l newL with hle | hgt
          · exact hall l (by omega) hle
          · exact hb3 l hgt (by omega)
      have : b'.sum = 0 := by
        rw [listSum_getD b', hb1]
        exact Finset.sum_eq_zero hz
      omega
  · rw [jpegScanMax_eq]
    rcases jpegFindJ_spec b' newL with ⟨_, hf2, _, hf4⟩ | ⟨hf0, hall⟩
    · intro l hl1 hl2
      rcases le_or_lt l newL with hle | hgt
      · exact hf4 l hl1 hle
      · exact hb3 l hgt hl2
    · intro l hl1 hl2
      rw [hf0] at hl1
      rcases le_or_lt l newL with hle | hgt
      · exact hall l (by omega) hle
      · exact hb3 l hgt hl2

theorem lowS_set_ge {L p v : ℕ} {bits : List ℕ} (hp : L ≤ p) :
    lowS L (bits.set p v) = lowS L bits := by
  unfold lowS
  apply Finset.sum_congr rfl
  intro l hl
  rw [Finset.mem_range] at hl
  rw [getD_set_ne (by omega)]

theorem lowS_set_add {L p c : ℕ} {bits : List ℕ} (hp : p < L)
    (hlen : p < bits.length) :
    lowS L (bits.set p (bits.getD p 0 + c)) = lowS L bits + c * 2 ^ (L - p) := by
  unfold lowS
  exact sum_getD_set_add (fun l => 2 ^ (L - l)) hp hlen

theorem lowS_set_sub {L p c : ℕ} {bits : List ℕ} (hp : p < L)
    (hlen : p < bits.length) (hc : c ≤ bits.getD p 0) :
    lowS L (bits.set p (bits.getD p 0 - c)) + c * 2 ^ (L - p) = lowS L bits := by
  unfold lowS
  exact sum_getD_set_sub (fun l => 2 ^ (L - l)) hp hlen hc

/-- The MiniZ collapse loop: zeroes the range `[i, i+n)`, moves its
symbols into entry `newL`, and touches nothing else; the symbol count is
preserved (counts stay below `2^31`, so the `unsigned int` addition does
not wrap). -/
theorem minizCollapse_spec (newL : ℕ) : ∀ n i bits, newL < i →
    bits.length = 64 → i + n ≤ 64 → bits.sum < 2 ^ 31 →
    (minizCollapse newL i n bits).length = 64 ∧
    (∀ l, l ≠ newL → (l < i ∨ i + n ≤ l) →
      (minizCollapse newL i n bits).getD l 0 = bits.getD l 0) ∧
    (∀ l, i ≤ l → l < i + n → (minizCollapse newL i n bits).getD l 0 = 0) ∧
    (minizCollapse newL i n bits).sum = bits.sum ∧
    lowS newL (minizCollapse newL i n bits) = lowS newL bits := by
  intro n
  induction n with
  | zero =>
    intro i bits hi hlen hin hS
    exact ⟨hlen, fun l _ _ => rfl, fun l hl1 hl2 => by omega, rfl, rfl⟩
  | succ n ih =>
    intro i bits hi hlen hin hS
    have hU : U32 = 4294967296 := by unfold U32; norm_num
    have h31 : (2:ℕ) ^ 31 = 2147483648 := by norm_num
    rw [h31] at hS
    have hvN : bits.getD newL 0 ≤ bits.sum := getD_le_sum bits newL
    have hvi : bits.getD i 0 ≤ bits.sum := getD_le_sum bits i
    have hu : u32 (bits.getD newL 0 + bits.getD i 0)
        = bits.getD newL 0 + bits.getD i 0 := by
      unfold u32
      exact Nat.mod_eq_of_lt (by omega)
    have hunf : minizCollapse newL i (n + 1) bits
        = minizCollapse newL (i + 1) n
            ((bits.set newL (u32 (bits.getD newL 0 + bits.getD i 0))).set i 0) :=
      rfl
    rw [hunf, hu]
    set B := (bits.set newL (bits.getD newL 0 + bits.getD i 0)).set i 0 with hB
    have hBlen : B.length = 64 := by
      rw [hB, List.length_set, List.length_set]
      exact hlen
    have hBsum : B.sum = bits.sum := by
      have h1 : (bits.set newL (bits.getD newL 0 + bits.getD i 0)).sum
          = bits.sum + bits.getD i 0 :=
        @listSum_set_add bits newL (bits.getD i 0) (by omega)
      have h2 : B.sum + (bits.set newL (bits.getD newL 0 + bits.getD i 0)).getD i 0
          = (bits.set newL (bits.getD newL 0 + bits.getD i 0)).sum + 0 := by
        rw [hB]
        exact @listSum_set (bits.set newL (bits.getD newL 0 + bits.getD i 0)) i 0
          (by rw [List.length_set]; omega)
      rw [getD_set_ne (by omega)] at h2
      omega
    have hBlow : lowS newL B = lowS newL bits := by
      rw [hB, lowS_set_ge (by omega), lowS_set_ge (le_refl _)]
    obtain ⟨c1, c2, c3, c4, c5⟩ := ih (i + 1) B (by omega) hBlen (by omega)
      (by omega)
    refine ⟨c1, ?_, ?_, ?_, ?_⟩
    · intro l hlN hlr
      rw [c2 l hlN (by omega), hB, getD_set_ne (by omega), getD_set_ne (by omega)]
    · intro l hl1 hl2
      rcases Nat.eq_or_lt_of_le hl1 with he | hlt
      · rw [c2 l (by omega) (by omega), hB, ← he, getD_set_self
          (by rw [List.length_set]; omega)]
      · exact c3 l (by omega) (by omega)
    · rw [c4, hBsum]
    · rw [c5, hBlow]

/-- The Kraft sum with the (always zero) entry 0 removed. -/
theorem kraftS_eq_Icc {L : ℕ} {b : List ℕ} (h0 : b.getD 0 0 = 0) :
    kraftS L b = ∑ l ∈ Finset.Icc 1 L, b.getD l 0 * 2 ^ (L - l) := by
  unfold kraftS
  have hins : Finset.range (L + 1) = insert 0 (Finset.Icc 1 L) := by
    ext x
    simp only [Finset.mem_range, Finset.mem_insert, Finset.mem_Icc]
    omega
  rw [hins, Finset.sum_insert (by simp), h0]
  simp

/-- The accumulation loop of limitedMinizInPlace computes the scaled
Kraft sum exactly, provided `newL ≤ 31` (so no shift count reaches 32)
and the sum fits an `unsigned int`. -/
theorem minizTotal_eq {newL : ℕ} {b : List ℕ} (h31 : newL ≤ 31)
    (hbound : kraftS newL b < 2 ^ 32) :
    ∀ k, k ≤ newL →
      minizTotal newL b k = ∑ l ∈ Finset.Icc 1 k, b.getD l 0 * 2 ^ (newL - l) := by
  intro k
  induction k with
  | zero =>
    intro _
    rw [Finset.Icc_eq_empty (by omega), Finset.sum_empty]
    rfl
  | succ k ih =>
    intro hk
    have hunf : minizTotal newL b (k + 1)
        = shl32 (b.getD (k + 1) 0) (newL - (k + 1)) + minizTotal newL b k := rfl
    rw [hunf, ih (by omega), Finset.sum_Icc_succ_top (by omega : 1 ≤ k + 1)]
    have hterm : b.getD (k + 1) 0 * 2 ^ (newL - (k + 1)) < 2 ^ 32 := by
      apply lt_of_le_of_lt _ hbound
      unfold kraftS
      exact Finset.single_le_sum (f := fun l => b.getD l 0 * 2 ^ (newL - l))
        (fun l _ => Nat.zero_le _) (Finset.mem_range.mpr (by omega))
    have hcnt : (newL - (k + 1)) % 32 = newL - (k + 1) :=
      Nat.mod_eq_of_lt (by omega)
    have hshl : shl32 (b.getD (k + 1) 0) (newL - (k + 1))
        = b.getD (k + 1) 0 * 2 ^ (newL - (k + 1)) := by
      unfold shl32 U32
      rw [hcnt]
      exact Nat.mod_eq_of_lt hterm
    rw [hshl]
    ring

/-- The balancing loop of limitedMinizInPlace: starting from a state
whose tracked total equals the scaled Kraft sum and whose below-top Kraft
mass is within budget, the loop ends with Kraft sum at most `one`; the
symbol count never grows, and is preserved outright when it fits the
budget. -/
theorem minizLoop_spec {newL one S : ℕ} (h2 : 2 ≤ newL) (h63 : newL ≤ 63)
    (hS : S < 2 ^ 31) :
    ∀ t bits, bits.length = 64 → bits.getD 0 0 = 0 →
      (∀ l, newL < l → l ≤ 63 → bits.getD l 0 = 0) →
      bits.sum ≤ S → kraftS newL bits = t → lowS newL bits ≤ one →
      (minizLoop newL one t bits).length = 64 ∧
      (minizLoop newL one t bits).getD 0 0 = 0 ∧
      (∀ l, newL < l → l ≤ 63 → (minizLoop newL one t bits).getD l 0 = 0) ∧
      kraftS newL (minizLoop newL one t bits) ≤ one ∧
      (minizLoop newL one t bits).sum ≤ bits.sum ∧
      (bits.sum ≤ one → (minizLoop newL one t bits).sum = bits.sum) := by
  have hU : U32 = 4294967296 := by unfold U32; norm_num
  have h31 : (2:ℕ) ^ 31 = 2147483648 := by norm_num
  rw [h31] at hS
  intro t
  induction t with
  | zero =>
    intro bits hlen h0 hhigh hsum hk hlow
    refine ⟨hlen, h0, hhigh, ?_, le_refl _, fun _ => rfl⟩
    have hr : minizLoop newL one 0 bits = bits := rfl
    rw [hr, hk]
    exact Nat.zero_le _
  | succ t ih =>
    intro bits hlen h0 hhigh hsum hk hlow
    have hunf : minizLoop newL one (t + 1) bits
        = if t + 1 ≤ one then bits
          else
            minizLoop newL one t
              (match minizFindI (bits.set newL (usub32 (bits.getD newL 0) 1))
                  (newL - 1) with
               | some i =>
                  ((bits.set newL (usub32 (bits.getD newL 0) 1)).set i
                    (usub32 ((bits.set newL
                      (usub32 (bits.getD newL 0) 1)).getD i 0) 1)).set (i + 1)
                    (u32 ((bits.set newL
                      (usub32 (bits.getD newL 0) 1)).getD (i + 1) 0 + 2))
               | none => bits.set newL (usub32 (bits.getD newL 0) 1)) := rfl
    by_cases hle : t + 1 ≤ one
    · rw [hunf, if_pos hle]
      refine ⟨hlen, h0, hhigh, ?_, le_refl _, fun _ => rfl⟩
      rw [hk]
      exact hle
    · have hsplit := kraftS_split newL bits
      have hbN : 1 ≤ bits.getD newL 0 := by omega
      have hvN : bits.getD newL 0 ≤ bits.sum := getD_le_sum bits newL
      have husub : usub32 (bits.getD newL 0) 1 = bits.getD newL 0 - 1 :=
        usub32_small (by omega) (by omega)
      rw [hunf, if_neg hle, husub]
      set B1 := bits.set newL (bits.getD newL 0 - 1) with hB1
      have hB1len : B1.length = 64 := by
        rw [hB1, List.length_set]
        exact hlen
      have hB1sum : B1.sum + 1 = bits.sum := by
        rw [hB1]
        exact @listSum_set_sub bits newL 1 (by omega) hbN
      have hB1k : kraftS newL B1 + 1 = t + 1 := by
        have h := @kraftS_set_sub newL newL 1 bits (le_refl _) (by omega) hbN
        rw [Nat.sub_self, pow_zero, mul_one] at h
        rw [hB1, h]
        exact hk
      have hB1low : lowS newL B1 = lowS newL bits := by
        rw [hB1, lowS_set_ge (le_refl _)]
      have hB10 : B1.getD 0 0 = 0 := by
        rw [hB1, getD_set_ne (by omega)]
        exact h0
      have hB1high : ∀ l, newL < l → l ≤ 63 → B1.getD l 0 = 0 := by
        intro l hl1 hl2
        rw [hB1, getD_set_ne (by omega)]
        exact hhigh l hl1 hl2
      rcases minizFindI_spec B1 (newL - 1) with ⟨i, hfind, hi1, hi2, hi3, _⟩ |
        ⟨hfind, hall⟩
      · rw [hfind]
        dsimp only
        have hvi : B1.getD i 0 ≤ B1.sum := getD_le_sum B1 i
        have husub2 : usub32 (B1.getD i 0) 1 = B1.getD i 0 - 1 :=
          usub32_small (by omega) (by omega)
        have hvi1 : B1.getD (i + 1) 0 ≤ B1.sum := getD_le_sum B1 (i + 1)
        have hu2 : u32 (B1.getD (i + 1) 0 + 2) = B1.getD (i + 1) 0 + 2 := by
          unfold u32
          exact Nat.mod_eq_of_lt (by omega)
        rw [husub2, hu2]
        set C1 := B1.set i (B1.getD i 0 - 1) with hC1
        have hci : C1.getD (i + 1) 0 = B1.getD (i + 1) 0 := by
          rw [hC1, getD_set_ne (by omega)]
        rw [← hci]
        set B2 := C1.set (i + 1) (C1.getD (i + 1) 0 + 2) with hB2
        have hC1len : C1.length = 64 := by
          rw [hC1, List.length_set]
          exact hB1len
        have hC1sum : C1.sum + 1 = B1.sum := by
          rw [hC1]
          exact @listSum_set_sub B1 i 1 (by omega) hi3
        have hC1k : kraftS newL C1 + 2 ^ (newL - i) = kraftS newL B1 := by
          have h := @kraftS_set_sub newL i 1 B1 (by omega) (by omega) hi3
          rw [one_mul] at h
          rw [hC1]
          exact h
        have hB2len : B2.length = 64 := by
          rw [hB2, List.length_set]
          exact hC1len
        have hB2sum : B2.sum = bits.sum := by
          have h : B2.sum = C1.sum + 2 := by
            rw [hB2]
            exact @listSum_set_add C1 (i + 1) 2 (by omega)
          omega
        have he2 : 2 * 2 ^ (newL - (i + 1)) = 2 ^ (newL - i) := by
          have hp := pow_succ' (2:ℕ) (newL - (i + 1))
          rw [show newL - (i + 1) + 1 = newL - i from by omega] at hp
          rw [← hp]
        have hB2k : kraftS newL B2 = t := by
          have h : kraftS newL B2 = kraftS newL C1 + 2 * 2 ^ (newL - (i + 1)) := by
            rw [hB2]
            exact @kraftS_set_add newL (i + 1) 2 C1 (by omega) (by omega)
          rw [he2] at h
          omega
        have hB2low : lowS newL B2 ≤ one := by
          rcases Nat.eq_or_lt_of_le (by omega : i + 1 ≤ newL) with heq | hlt
          · have h : lowS newL B2 = lowS newL C1 := by
              rw [hB2]
              exact lowS_set_ge (by omega)
            have h2' : lowS newL C1 + 2 ^ (newL - i) = lowS newL B1 := by
              have hh := @lowS_set_sub newL i 1 B1 (by omega) (by omega) hi3
              rw [one_mul] at hh
              rw [hC1]
              exact hh
            omega
          · have h : lowS newL B2 = lowS newL C1 + 2 * 2 ^ (newL - (i + 1)) := by
              rw [hB2]
              exact @lowS_set_add newL (i + 1) 2 C1 (by omega) (by omega)
            have h2' : lowS newL C1 + 2 ^ (newL - i) = lowS newL B1 := by
              have hh := @lowS_set_sub newL i 1 B1 (by omega) (by omega) hi3
              rw [one_mul] at hh
              rw [hC1]
              exact hh
            rw [he2] at h
            omega
        have hB20 : B2.getD 0 0 = 0 := by
          rw [hB2, getD_set_ne (by omega), hC1, getD_set_ne (by omega)]
          exact hB10
        have hB2high : ∀ l, newL < l → l ≤ 63 → B2.getD l 0 = 0 := by
          intro l hl1 hl2
          rw [hB2, getD_set_ne (by omega), hC1, getD_set_ne (by omega)]
          exact hB1high l hl1 hl2
        obtain ⟨i1, i2, i3, i4, i5, i6⟩ := ih B2 hB2len hB20 hB2high
          (by omega) hB2k hB2low
        refine ⟨i1, i2, i3, i4, by omega, ?_⟩
        intro hp
        rw [i6 (by omega), hB2sum]
      · rw [hfind]
        dsimp only
        have hlowB1 : lowS newL B1 = 0 := by
          unfold lowS
          apply Finset.sum_eq_zero
          intro l hl
          rw [Finset.mem_range] at hl
          rcases Nat.eq_zero_or_pos l with h0l | hpos
          · rw [h0l, hB10]
            ring
          · rw [hall l (by omega) (by omega)]
            ring
        obtain ⟨i1, i2, i3, i4, i5, i6⟩ := ih B1 hB1len hB10 hB1high
          (by omega) (by omega) (by omega)
        refine ⟨i1, i2, i3, i4, by omega, ?_⟩
        intro hp
        exfalso
        have hlowbits : lowS newL bits = 0 := by
          rw [← hB1low]
          exact hlowB1
        omega

/-- The below-`newL` Kraft mass, rescaled to the `oldL` scale. -/
theorem lowS_rescale {newL oldL : ℕ} {bits : List ℕ} (h : newL ≤ oldL) :
    2 ^ (oldL - newL) * lowS newL bits
      = ∑ l ∈ Finset.range newL, bits.getD l 0 * 2 ^ (oldL - l) := by
  unfold lowS
  rw [Finset.mul_sum]
  apply Finset.sum_congr rfl
  intro l hl
  rw [Finset.mem_range] at hl
  have he : oldL - l = (oldL - newL) + (newL - l) := by omega
  rw [he, pow_add]
  ring

/-- The Kraft precondition at `oldL` bounds the below-`newL` mass by the
budget at `newL`. -/
theorem lowS_le_of_kraft {newL oldL : ℕ} {bits : List ℕ} (h : newL ≤ oldL)
    (hk : kraftS oldL bits ≤ 2 ^ oldL) : lowS newL bits ≤ 2 ^ newL := by
  have h1 := @lowS_rescale newL oldL bits h
  have h2' : ∑ l ∈ Finset.range newL, bits.getD l 0 * 2 ^ (oldL - l)
      ≤ kraftS oldL bits := by
    unfold kraftS
    apply Finset.sum_le_sum_of_subset
    intro x hx
    rw [Finset.mem_range] at hx ⊢
    omega
  have h3 : (2:ℕ) ^ (oldL - newL) * 2 ^ newL = 2 ^ oldL := by
    rw [← pow_add, Nat.sub_add_cancel h]
  have h4 : 2 ^ (oldL - newL) * lowS newL bits
      ≤ 2 ^ (oldL - newL) * 2 ^ newL := by
    rw [h3, h1]
    omega
  exact Nat.le_of_mul_le_mul_left h4
    (Nat.pos_pow_of_pos (oldL - newL) (by norm_num))

/-- Full specification of limitedMinizInPlace on inputs satisfying the
contract with `newL ≤ 31` (larger `newL` hits the 32-bit shift bug of
C5): the function returns `newL`; the reduced histogram respects the
Kraft budget at `newL`, keeps `bits[0] = 0` and has no code longer than
`newL`; the symbol count never grows, and is preserved exactly whenever
it fits the budget (`M ≤ 2^newL`). -/
theorem limitedMinizInPlace_spec {newL oldL M : ℕ} {bits : List ℕ}
    (h2 : 2 ≤ newL) (hno : newL < oldL) (ho63 : oldL ≤ 63) (h31 : newL ≤ 31)
    (hlen : bits.length = 64) (h0 : bits.getD 0 0 = 0)
    (hhigh : ∀ l, oldL < l → l ≤ 63 → bits.getD l 0 = 0)
    (hk : kraftS oldL bits ≤ 2 ^ oldL) (hsum : bits.sum = M)
    (hM : M < 2 ^ 31) :
    (limitedMinizInPlace newL oldL bits).1 = newL ∧
    (limitedMinizInPlace newL oldL bits).2.length = 64 ∧
    (limitedMinizInPlace newL oldL bits).2.getD 0 0 = 0 ∧
    (∀ l, newL < l → l ≤ 63 →
      (limitedMinizInPlace newL oldL bits).2.getD l 0 = 0) ∧
    kraftS newL (limitedMinizInPlace newL oldL bits).2 ≤ 2 ^ newL ∧
    (limitedMinizInPlace newL oldL bits).2.sum ≤ M ∧
    (M ≤ 2 ^ newL → (limitedMinizInPlace newL oldL bits).2.sum = M) := by
  obtain ⟨c1, c2, c3, c4, c5⟩ := minizCollapse_spec newL (oldL - newL)
    (newL + 1) bits (by omega) hlen (by omega) (by omega)
  set b := minizCollapse newL (newL + 1) (oldL - newL) bits with hbdef
  have hb0 : b.getD 0 0 = 0 := by
    rw [c2 0 (by omega) (by omega)]
    exact h0
  have hbhigh : ∀ l, newL < l → l ≤ 63 → b.getD l 0 = 0 := by
    intro l hl1 hl2
    rcases Nat.lt_or_ge l (oldL + 1) with hlt | hge
    · exact c3 l (by omega) (by omega)
    · rw [c2 l (by omega) (by omega)]
      exact hhigh l (by omega) hl2
  have hlowb : lowS newL b ≤ 2 ^ newL := by
    rw [c5]
    exact lowS_le_of_kraft (by omega) hk
  have hbN : b.getD newL 0 ≤ M := by
    rw [← hsum, ← c4]
    exact getD_le_sum b newL
  have hp31 : (2:ℕ) ^ newL ≤ 2 ^ 31 := Nat.pow_le_pow_right (by norm_num) h31
  have hn31 : (2:ℕ) ^ 31 = 2147483648 := by norm_num
  have hn32 : (2:ℕ) ^ 32 = 4294967296 := by norm_num
  have hkb : kraftS newL b ≤ 2 ^ newL + M := by
    rw [kraftS_split]
    omega
  have hkb32 : kraftS newL b < 2 ^ 32 := by omega
  have htot : minizTotal newL b newL = kraftS newL b := by
    rw [minizTotal_eq h31 hkb32 newL (le_refl _), ← kraftS_eq_Icc hb0]
  have hone : shl64one newL = 2 ^ newL := by
    unfold shl64one
    rw [Nat.mod_eq_of_lt (by omega)]
  have hunf : limitedMinizInPlace newL oldL bits
      = (newL, minizLoop newL (shl64one newL) (minizTotal newL b newL) b) := by
    unfold limitedMinizInPlace
    rw [if_neg (by omega), if_neg (by omega), if_neg (by omega)]
  obtain ⟨i1, i2, i3, i4, i5, i6⟩ := @minizLoop_spec newL (shl64one newL) M
    h2 (by omega) hM (minizTotal newL b newL) b c1 hb0 hbhigh (by omega)
    (by rw [htot]) (by rw [hone]; exact hlowb)
  rw [hunf]
  dsimp only
  refine ⟨rfl, ?_, ?_, ?_, ?_, ?_, ?_⟩
  · exact i1
  · exact i2
  · exact i3
  · rw [← hone]
    exact i4
  · omega
  · intro hMf
    rw [i6 (by rw [hone, c4, hsum]; exact hMf), c4, hsum]

/-- A 64-entry length histogram (lengths 1,2,3,4,5,5) with exact Kraft
sum `2^5` and six symbols, used to witness the reducer contracts. -/
def histW64 : List ℕ := [0, 1, 1, 1, 1, 2] ++ List.replicate 58 0

/-- C6 (amended).  For histograms over 64 length slots with `bits[0] = 0`
and no length above `oldL`, and for `2 ≤ newL ≤ oldL ≤ 63`: the in-place
reducers perform the reduction and return a nonzero result.
limitedMinizInPlace always returns `newL` itself.  limitedJpegInPlace,
whose demotion step removes codes in pairs and needs a code at least two
bits shorter, additionally requires the Kraft sum to be exactly `2^oldL`
and the symbol count to fit the target budget (`M ≤ 2^newL`); it then
returns the observed maximum `m ∈ [1, newL]` of the reduced histogram.
For `newL = oldL` both functions return `newL` and leave the histogram
unchanged.  (For `newL ≤ 1` both return 0 — `C6_cex_newL_one_returns_zero`
refutes the original claim's `newL = 1` case.) -/
theorem C6_reducers_reduce (newL oldL M : ℕ) (bits : List ℕ)
    (h2 : 2 ≤ newL) (hno : newL < oldL) (ho63 : oldL ≤ 63)
    (hlen : bits.length = 64) (h0 : bits.getD 0 0 = 0)
    (hhigh : ∀ l, l ≤ 63 → oldL < l → bits.getD l 0 = 0)
    (hsum : bits.sum = M) (hM : M < 2 ^ 31) :
    ((limitedMinizInPlace newL oldL bits).1 = newL ∧ newL ≠ 0) ∧
    (kraftS oldL bits = 2 ^ oldL → M ≤ 2 ^ newL →
      ∃ m b', limitedJpegInPlace newL oldL bits = some (m, b') ∧ 1 ≤ m ∧
        m ≤ newL ∧ b'.getD m 0 ≠ 0 ∧
        (∀ l, l ≤ 63 → m < l → b'.getD l 0 = 0)) ∧
    (∀ b2 : List ℕ, limitedJpegInPlace newL newL b2 = some (newL, b2) ∧
      limitedMinizInPlace newL newL b2 = (newL, b2)) := by
  refine ⟨⟨?_, by omega⟩, ?_, ?_⟩
  · unfold limitedMinizInPlace
    rw [if_neg (by omega), if_neg (by omega)]
    by_cases he : newL = oldL
    · rw [if_pos he]
    · rw [if_neg he]
  · intro hk hMf
    have hM0 : 0 < M := by
      by_contra hc
      push_neg at hc
      have hz : kraftS oldL bits = 0 := by
        unfold kraftS
        apply Finset.sum_eq_zero
        intro l _
        have := getD_le_sum bits l
        have : bits.getD l 0 = 0 := by omega
        rw [this]
        ring
      rw [hz] at hk
      have hp := Nat.pos_pow_of_pos oldL (show 0 < 2 by norm_num)
      omega
    obtain ⟨b', he, hm1, hm2, _, _, hmx, hzeros, _, _⟩ :=
      limitedJpegInPlace_spec h2 hno ho63 hlen h0
        (fun l hl1 hl2 => hhigh l hl2 hl1) hk hsum hMf hM hM0
    exact ⟨jpegScanMax b' newL, b', he, hm1, hm2, hmx,
      fun l hl1 hl2 => hzeros l hl2 hl1⟩
  · intro b2
    constructor
    · unfold limitedJpegInPlace
      rw [if_neg (by omega), if_neg (by omega), if_pos rfl]
    · unfold limitedMinizInPlace
      rw [if_neg (by omega), if_neg (by omega), if_pos rfl]

/-- Witness: the amended C6 theorem applied to the histogram with
lengths 1,2,3,4,5,5 (exact Kraft, six symbols), reduced from 5 to 4
bits. -/
theorem C6_reducers_reduce_witness :
    (limitedMinizInPlace 4 5 histW64).1 = 4 ∧
    (limitedJpegInPlace 4 5 histW64).isSome = true := by
  have h := C6_reducers_reduce 4 5 6 histW64 (by norm_num) (by norm_num)
    (by norm_num) (by decide) (by decide) (by decide) (by decide) (by decide)
  obtain ⟨⟨hm, _⟩, hjpeg, _⟩ := h
  obtain ⟨m, b', he, _⟩ := hjpeg (by decide) (by decide)
  exact ⟨hm, by rw [he]; rfl⟩

/-- C7 (amended).  Reducer invariants, with the two corrections forced by
`C7_cex_miniz_count_not_preserved`: (1) each individual JPEG demotion
step with a genuine shorter code (`1 ≤ j`, `j + 1 < i`) preserves the
scale-63 Kraft sum exactly and the symbol count; (2) a full
limitedJpegInPlace run keeps the Kraft sum exact and the count unchanged
provided the input Kraft sum is exactly `2^oldL` and the count fits the
budget (`M ≤ 2^newL`) — without these, the search can come up empty and
the step corrupts `bits[0]` and breaks the Kraft bound; (3) a full
limitedMinizInPlace run (for `newL ≤ 31`, larger values hit the C5 shift
bug) ends with Kraft sum at most `2^newL`, never increases the symbol
count, and preserves it exactly iff-needed when `M ≤ 2^newL`. -/
theorem C7_reducer_invariants (newL oldL M : ℕ) (bits : List ℕ)
    (h2 : 2 ≤ newL) (hno : newL < oldL) (ho63 : oldL ≤ 63)
    (hlen : bits.length = 64) (h0 : bits.getD 0 0 = 0)
    (hhigh : ∀ l, l ≤ 63 → oldL < l → bits.getD l 0 = 0)
    (hsum : bits.sum = M) (hM : M < 2 ^ 31) :
    (∀ b2 : List ℕ, ∀ i j, b2.length = 64 → b2.sum < 2 ^ 31 → i ≤ 63 →
      1 ≤ j → j + 1 < i → 2 ≤ b2.getD i 0 → 1 ≤ b2.getD j 0 →
      kraftS 63 (jpegStep b2 i j) = kraftS 63 b2 ∧
      (jpegStep b2 i j).sum = b2.sum) ∧
    (kraftS oldL bits = 2 ^ oldL → M ≤ 2 ^ newL →
      ∃ m b', limitedJpegInPlace newL oldL bits = some (m, b') ∧
        kraftS newL b' = 2 ^ newL ∧ b'.sum = M) ∧
    (newL ≤ 31 → kraftS oldL bits ≤ 2 ^ oldL →
      kraftS newL (limitedMinizInPlace newL oldL bits).2 ≤ 2 ^ newL ∧
      (limitedMinizInPlace newL oldL bits).2.sum ≤ M ∧
      (M ≤ 2 ^ newL → (limitedMinizInPlace newL oldL bits).2.sum = M)) := by
  refine ⟨?_, ?_, ?_⟩
  · intro b2 i j h2len h2sum hi h1j hji hbi hbj
    obtain ⟨_, hs2, hs3, _, _, _⟩ :=
      @jpegStep_spec b2.sum 0 i j b2 h2len rfl h2sum hi h1j hji (by omega)
        hbi hbj
    exact ⟨hs3, hs2⟩
  · intro hk hMf
    have hM0 : 0 < M := by
      by_contra hc
      push_neg at hc
      have hz : kraftS oldL bits = 0 := by
        unfold kraftS
        apply Finset.sum_eq_zero
        intro l _
        have h1 := getD_le_sum bits l
        have h2' : bits.getD l 0 = 0 := by omega
        rw [h2']
        ring
      rw [hz] at hk
      have hp := Nat.pos_pow_of_pos oldL (show 0 < 2 by norm_num)
      omega
    obtain ⟨b', he, _, _, _, _, _, _, hkraft, hsum'⟩ :=
      limitedJpegInPlace_spec h2 hno ho63 hlen h0
        (fun l hl1 hl2 => hhigh l hl2 hl1) hk hsum hMf hM hM0
    exact ⟨jpegScanMax b' newL, b', he, hkraft, hsum'⟩
  · intro h31 hk
    obtain ⟨_, _, _, _, m5, m6, m7⟩ :=
      limitedMinizInPlace_spec h2 hno ho63 h31 hlen h0
        (fun l hl1 hl2 => hhigh l hl2 hl1) hk hsum hM
    exact ⟨m5, m6, m7⟩

/-- Witness: the amended C7 theorem applied to the exact-Kraft histogram
with lengths 1,2,3,4,5,5, reduced from 5 to 4 bits by both reducers. -/
theorem C7_reducer_invariants_witness :
    (limitedJpegInPlace 4 5 histW64).isSome = true ∧
    kraftS 4 (limitedMinizInPlace 4 5 histW64).2 ≤ 2 ^ 4 ∧
    (limitedMinizInPlace 4 5 histW64).2.sum = 6 := by
  have h := C7_reducer_invariants 4 5 6 histW64 (by norm_num) (by norm_num)
    (by norm_num) (by decide) (by decide) (by decide) (by decide) (by decide)
  obtain ⟨_, hjpeg, hminiz⟩ := h
  obtain ⟨m, b', he, _, _⟩ := hjpeg (by decide) (by decide)
  obtain ⟨hm1, _, hm3⟩ := hminiz (by norm_num) (by decide)
  exact ⟨by rw [he]; rfl, hm1, hm3 (by decide)⟩

/-! ## limitedImpl (limitedjpegdeflate.c lines 220-328)

The shared body of limitedJpeg and limitedMiniz.  The `qsort` call uses a
comparator on the keys; its result on distinct keys below `2^31` is the
ascending order, and on ties some permutation of the tied run — the
embedding fixes a stable insertion sort, one of the permitted outcomes.
The output buffer `codeLengths` is the third argument and is returned;
`none` marks runs on which the C program commits an out-of-bounds access
(the scatter loop reading `histNumBits[reduce]` with `reduce ≥ 64` after
the `unsigned char` index wrapped) or fails to terminate. -/

/-- C `unsigned char` subtraction (wraps modulo 256). -/
def usub8 (a b : ℕ) : ℕ := (a + (256 - b % 256)) % 256

/-- The key/value pairs of the nonzero histogram entries, in index
order (lines 247-257). -/
def buildMapping : List ℕ → ℕ → List (ℕ × ℕ)
  | [], _ => []
  | h :: rest, i =>
    if h = 0 then buildMapping rest (i + 1) else (h, i) :: buildMapping rest (i + 1)

/-- Stable insertion of a pair into a key-sorted list. -/
def insertSorted (p : ℕ × ℕ) : List (ℕ × ℕ) → List (ℕ × ℕ)
  | [] => [p]
  | q :: rest => if p.1 < q.1 then p :: q :: rest else q :: insertSorted p rest

/-- The embedding's model of `qsort` with the key comparator: a stable
sort by key. -/
def sortPairs : List (ℕ × ℕ) → List (ℕ × ℕ)
  | [] => []
  | p :: rest => insertSorted p (sortPairs rest)

/-- Scatter code lengths back to their symbols (lines 276-277). -/
def writeBack : List (ℕ × ℕ) → List ℕ → List ℕ
  | [], out => out
  | (v, len) :: rest, out => writeBack rest (out.set v len)

/-- The code-length histogram of the Moffat output (lines 293-295). -/
def buildHist : List ℕ → List ℕ → List ℕ
  | [], acc => acc
  | l :: rest, acc => buildHist rest (acc.set l (acc.getD l 0 + 1))

/-- The inner search `while (histNumBits[reduce] == 0) reduce--;` of the
final scatter loop (lines 319-320).  `reduce` is an `unsigned char` and
wraps below 0; reading `histNumBits[reduce]` with `reduce ≥ 64` is an
out-of-bounds access, modelled as `none`. -/
def scatterWalk (bits : List ℕ) : ℕ → ℕ → Option ℕ
  | 0, _ => none
  | f + 1, r =>
    if 64 ≤ r then none
    else if bits.getD r 0 = 0 then scatterWalk bits f (usub8 r 1)
    else some r

/-- The final scatter loop (lines 308-321), iterating over the sorted
symbols.  Returns the output buffer, the consumed histogram and the final
`reduce`. -/
def scatterLoop : List ℕ → List ℕ → ℕ → List ℕ → Option (List ℕ × List ℕ × ℕ)
  | bits, out, reduce, [] => some (out, bits, reduce)
  | bits, out, reduce, v :: rest =>
    let out1 := out.set v (u8 reduce)
    if 64 ≤ reduce then none
    else
      let bits1 := bits.set reduce (usub32 (bits.getD reduce 0) 1)
      match scatterWalk bits1 256 reduce with
      | none => none
      | some r => scatterLoop bits1 out1 r rest

/-- limitedImpl (lines 220-328), parameterized by the in-place reducer. -/
def limitedImpl (alg : ℕ → ℕ → List ℕ → Option (ℕ × List ℕ))
    (maxLength : ℕ) (histogram : List ℕ) (out0 : List ℕ) :
    Option (ℕ × List ℕ) :=
  if maxLength = 0 ∨ 63 < maxLength ∨ histogram.length = 0 then some (0, out0)
  else
    let mapping := buildMapping histogram 0
    if mapping.length = 0 then some (0, out0)
    else
      let out1 := if mapping.length < histogram.length
        then List.replicate histogram.length 0 else out0
      let sm := sortPairs mapping
      let mr := moffatSortedInPlace sm.length (sm.map (fun p => p.1))
      if mr.1 ≤ maxLength then
        some (mr.1, writeBack ((sm.map (fun p => p.2)).zip mr.2) out1)
      else if 63 < mr.1 then some (0, out1)
      else
        match alg maxLength mr.1 (buildHist mr.2 (List.replicate 64 0)) with
        | none => none
        | some (newMax, hist2) =>
          if newMax = 0 then some (0, out1)
          else
            match scatterLoop hist2 out1 newMax (sm.map (fun p => p.2)) with
            | none => none
            | some (outF, _, _) => some (newMax, outF)

/-- limitedJpeg (lines 339-342). -/
def limitedJpeg (maxLength : ℕ) (histogram : List ℕ) (out0 : List ℕ) :
    Option (ℕ × List ℕ) :=
  limitedImpl limitedJpegInPlace maxLength histogram out0

/-- limitedMiniz (lines 353-356). -/
def limitedMiniz (maxLength : ℕ) (histogram : List ℕ) (out0 : List ℕ) :
    Option (ℕ × List ℕ) :=
  limitedImpl (fun nL oL b => some (limitedMinizInPlace nL oL b))
    maxLength histogram out0


/-- An all-zero histogram sends the scatter search below index 1: it
reads index 0, wraps the `unsigned char` to 255 and goes out of
bounds. -/
theorem scatterWalk_zero {bits : List ℕ} (hz : ∀ l, bits.getD l 0 = 0) :
    ∀ r, r ≤ 63 → ∀ f, r + 2 ≤ f → scatterWalk bits f r = none := by
  intro r
  induction r with
  | zero =>
    intro _ f hf
    obtain ⟨g, hg⟩ : ∃ g, f = g + 1 := ⟨f - 1, by omega⟩
    subst hg
    have h1 : scatterWalk bits (g + 1) 0
        = if 64 ≤ 0 then none
          else if bits.getD 0 0 = 0 then scatterWalk bits g (usub8 0 1)
          else some 0 := rfl
    rw [h1, if_neg (by omega), if_pos (hz 0)]
    have hu : usub8 0 1 = 255 := rfl
    rw [hu]
    obtain ⟨g2, hg2⟩ : ∃ g2, g = g2 + 1 := ⟨g - 1, by omega⟩
    subst hg2
    have h2 : scatterWalk bits (g2 + 1) 255
        = if 64 ≤ 255 then none
          else if bits.getD 255 0 = 0 then scatterWalk bits g2 (usub8 255 1)
          else some 255 := rfl
    rw [h2, if_pos (by omega)]
  | succ r ih =>
    intro hr f hf
    obtain ⟨g, hg⟩ : ∃ g, f = g + 1 := ⟨f - 1, by omega⟩
    subst hg
    have h1 : scatterWalk bits (g + 1) (r + 1)
        = if 64 ≤ r + 1 then none
          else if bits.getD (r + 1) 0 = 0 then scatterWalk bits g (usub8 (r + 1) 1)
          else some (r + 1) := rfl
    rw [h1, if_neg (by omega), if_pos (hz (r + 1))]
    have hu : usub8 (r + 1) 1 = r := by
      unfold usub8
      omega
    rw [hu]
    exact ih (by omega) g (by omega)

/-- When symbols remain, the scatter search succeeds: it stops at the
topmost nonzero entry, which lies in `[1, r]`. -/
theorem scatterWalk_spec {bits : List ℕ} (h0 : bits.getD 0 0 = 0) :
    ∀ r, r ≤ 63 → (∀ l, r < l → bits.getD l 0 = 0) → 1 ≤ bits.sum →
    ∀ f, r + 2 ≤ f →
    ∃ w, scatterWalk bits f r = some w ∧ 1 ≤ w ∧ w ≤ r ∧
      1 ≤ bits.getD w 0 ∧ (∀ l, w < l → bits.getD l 0 = 0) := by
  intro r
  induction r with
  | zero =>
    intro _ hhigh hsum _ _
    exfalso
    have hz : ∀ l, bits.getD l 0 = 0 := by
      intro l
      rcases Nat.eq_zero_or_pos l with h0l | hp
      · rw [h0l]
        exact h0
      · exact hhigh l (by omega)
    have hs0 : bits.sum = 0 := by
      rw [listSum_getD]
      exact Finset.sum_eq_zero (fun l _ => hz l)
    omega
  | succ r ih =>
    intro hr hhigh hsum f hf
    obtain ⟨g, hg⟩ : ∃ g, f = g + 1 := ⟨f - 1, by omega⟩
    subst hg
    have h1 : scatterWalk bits (g + 1) (r + 1)
        = if 64 ≤ r + 1 then none
          else if bits.getD (r + 1) 0 = 0 then scatterWalk bits g (usub8 (r + 1) 1)
          else some (r + 1) := rfl
    by_cases hz : bits.getD (r + 1) 0 = 0
    · rw [h1, if_neg (by omega), if_pos hz]
      have hu : usub8 (r + 1) 1 = r := by
        unfold usub8
        omega
      rw [hu]
      obtain ⟨w, hw1, hw2, hw3, hw4, hw5⟩ := ih (by omega)
        (fun l hl => by
          rcases Nat.lt_or_ge (r + 1) l with hgt | hle
          · exact hhigh l hgt
          · have hle2 : l = r + 1 := by omega
            rw [hle2]
            exact hz) hsum g (by omega)
      exact ⟨w, hw1, hw2, by omega, hw4, hw5⟩
    · rw [h1, if_neg (by omega), if_neg hz]
      exact ⟨r + 1, rfl, by omega, le_refl _, by omega, hhigh⟩

/-- C10 (corrected/amended).  The final scatter loop of limitedImpl, on
any state in which the histogram counts exactly cover the remaining
symbols (which `2^L ≥ M` guarantees on entry, since the reducer then
preserved the count): every decrement is safe — the current `reduce`
lies in `[1, 63]` and `histNumBits[reduce]` is positive, and as long as
at least one more symbol remains the search again stops at an index in
`[1, 63]` with a positive count — but after the LAST symbol the search
inevitably walks below index 1: it reads `histNumBits[0]`, wraps the
`unsigned char` to 255 and accesses `histNumBits[255]`, out of bounds
(modelled by `none`).  The original claim that the loop "only ever
accesses histNumBits[reduce] with reduce in the range [1, 63]" is
therefore false precisely in its final search. -/
theorem C10_scatter_final_underflow (bits out vals : List ℕ) (reduce : ℕ)
    (hlen : bits.length = 64) (h0 : bits.getD 0 0 = 0)
    (hr1 : 1 ≤ reduce) (hr63 : reduce ≤ 63)
    (hpos : 1 ≤ bits.getD reduce 0)
    (hhigh : ∀ l, reduce < l → bits.getD l 0 = 0)
    (hcount : bits.sum = vals.length) (hsum32 : bits.sum < 2 ^ 32) :
    scatterLoop bits out reduce vals = none ∧
    (∀ v rest, vals = v :: rest → 1 ≤ rest.length →
      ∃ w, scatterWalk (bits.set reduce (bits.getD reduce 0 - 1)) 256 reduce
          = some w ∧ 1 ≤ w ∧ w ≤ 63 ∧
        1 ≤ (bits.set reduce (bits.getD reduce 0 - 1)).getD w 0) := by
  have hU : U32 = 4294967296 := by unfold U32; norm_num
  have hn32 : (2:ℕ) ^ 32 = 4294967296 := by norm_num
  rw [hn32] at hsum32
  constructor
  · induction vals generalizing bits out reduce with
    | nil =>
      exfalso
      have := getD_le_sum bits reduce
      simp only [List.length_nil] at hcount
      omega
    | cons v rest ih =>
      have hvr : bits.getD reduce 0 ≤ bits.sum := getD_le_sum bits reduce
      have husub : usub32 (bits.getD reduce 0) 1 = bits.getD reduce 0 - 1 :=
        usub32_small (by omega) (by rw [hU]; omega)
      have hunf : scatterLoop bits out reduce (v :: rest)
          = if 64 ≤ reduce then none
            else
              match scatterWalk (bits.set reduce
                  (usub32 (bits.getD reduce 0) 1)) 256 reduce with
              | none => none
              | some r => scatterLoop (bits.set reduce
                  (usub32 (bits.getD reduce 0) 1)) (out.set v (u8 reduce)) r rest :=
        rfl
      rw [hunf, if_neg (by omega), husub]
      set B := bits.set reduce (bits.getD reduce 0 - 1) with hB
      have hBlen : B.length = 64 := by
        rw [hB, List.length_set]
        exact hlen
      have hBsum : B.sum + 1 = bits.sum := by
        rw [hB]
        exact @listSum_set_sub bits reduce 1 (by omega) hpos
      have hB0 : B.getD 0 0 = 0 := by
        rw [hB, getD_set_ne (by omega)]
        exact h0
      have hBhigh : ∀ l, reduce < l → B.getD l 0 = 0 := by
        intro l hl
        rw [hB, getD_set_ne (by omega)]
        exact hhigh l hl
      simp only [List.length_cons] at hcount
      rcases Nat.eq_zero_or_pos rest.length with hr0 | hrpos
      · -- last symbol: all counts are now zero and the search underflows
        have hz : ∀ l, B.getD l 0 = 0 := by
          intro l
          have h1 := getD_le_sum B l
          omega
        rw [scatterWalk_zero hz reduce hr63 256 (by omega)]
      · obtain ⟨w, hw1, hw2, hw3, hw4, hw5⟩ :=
          scatterWalk_spec hB0 reduce hr63 hBhigh (by omega) 256 (by omega)
        rw [hw1]
        exact ih B (out.set v (u8 reduce)) w hBlen hB0 hw2 (by omega) hw4 hw5
          (by omega) (by omega)
  · intro v rest hv hrest
    have hvr : bits.getD reduce 0 ≤ bits.sum := getD_le_sum bits reduce
    set B := bits.set reduce (bits.getD reduce 0 - 1) with hB
    have hBsum : B.sum + 1 = bits.sum := by
      rw [hB]
      exact @listSum_set_sub bits reduce 1 (by omega) hpos
    have hB0 : B.getD 0 0 = 0 := by
      rw [hB, getD_set_ne (by omega)]
      exact h0
    have hBhigh : ∀ l, reduce < l → B.getD l 0 = 0 := by
      intro l hl
      rw [hB, getD_set_ne (by omega)]
      exact hhigh l hl
    rw [hv] at hcount
    simp only [List.length_cons] at hcount
    obtain ⟨w, hw1, hw2, hw3, hw4, _⟩ :=
      scatterWalk_spec hB0 reduce hr63 hBhigh (by omega) 256 (by omega)
    exact ⟨w, hw1, hw2, by omega, hw4⟩

/-- Witness: the amended C10 theorem on the histogram state left by a
clean 5-symbol reduction (four codes of length 3, one of length 1). -/
theorem C10_scatter_final_underflow_witness :
    scatterLoop (((List.replicate 64 0).set 3 4).set 1 1)
      [9, 9, 9, 9, 9] 3 [0, 1, 2, 3, 4] = none := by
  have h := C10_scatter_final_underflow (((List.replicate 64 0).set 3 4).set 1 1)
    [9, 9, 9, 9, 9] [0, 1, 2, 3, 4] 3 (by decide) (by decide) (by decide)
    (by decide) (by decide) ?hh (by decide) (by decide)
  · exact h.1
  · intro l hl
    rcases Nat.lt_or_ge l 64 with h64 | h64
    · revert hl
      revert l
      decide
    · exact getD_oob (by rw [List.length_set, List.length_set,
        List.length_replicate]; omega)

/-- C10 (counterexample facts).  A concrete run reaching the underflow:
limitedJpeg on frequencies `[1, 1, 2, 4, 8]` with L = 3 (a feasible
input: 5 symbols ≤ 2^3) reduces cleanly, and the final scatter search
then walks from index 1 to index 0, wraps the `unsigned char` index to
255 (`usub8 0 1 = 255`) and accesses `histNumBits[255]`, out of bounds
— the whole call is undefined behaviour (`none`). -/
theorem C10_cex_scatter_reads_index_zero :
    limitedJpeg 3 [1, 1, 2, 4, 8] [9, 9, 9, 9, 9] = none ∧
    limitedMiniz 3 [1, 1, 2, 4, 8] [9, 9, 9, 9, 9] = none ∧
    scatterWalk (List.replicate 64 0) 256 1
      = scatterWalk (List.replicate 64 0) 255 0 ∧
    scatterWalk (List.replicate 64 0) 255 0
      = scatterWalk (List.replicate 64 0) 254 255 ∧
    usub8 0 1 = 255 ∧ (64 ≤ 255) ∧
    scatterWalk (List.replicate 64 0) 254 255 = none := by
  refine ⟨by decide, by decide, by decide, by decide, by decide, by decide,
    by decide⟩

/-- C1 (counterexample).  limitedJpeg with L = 3 on nine frequencies of 1
— an input satisfying all the parameter contracts (0 < L ≤ 63,
non-negative frequencies, their sum 9 fits 64 bits, at least one is
nonzero) — returns the nonzero value 3, yet the output length vector
`[1, 3, 3, 3, 3, 3, 3, 3, 3]` is NOT a valid length-limited code
description: its Kraft sum `∑ 2^(3 - lenᵢ) = 4 + 8·1 = 12` exceeds
`2^3 = 8`.  (Nine symbols cannot fit 3-bit codes; instead of failing, the
JPEG demotion corrupts its internal histogram — see C7 — and the scatter
loop then fabricates an overfull code.) -/
theorem C1_cex_jpeg_kraft_violation :
    limitedJpeg 3 (List.replicate 9 1) (List.replicate 9 0)
      = some (3, [1, 3, 3, 3, 3, 3, 3, 3, 3]) ∧
    (∑ i ∈ Finset.range 9,
      2 ^ (3 - [1, 3, 3, 3, 3, 3, 3, 3, 3].getD i 0)) = 12 ∧
    ¬ ((12 : ℕ) ≤ 2 ^ 3) ∧ (3 : ℕ) ≠ 0 ∧
    (0 : ℕ) < 3 ∧ (3 : ℕ) ≤ 63 ∧ (List.replicate 9 1).sum = 9 := by
  refine ⟨by decide, by decide, by decide, by decide, by decide, by decide,
    by decide⟩
